import Mathlib

/-!
Verification development for the accumulator cores of this repository:
GCS block filters (blockfilter.cpp), the chain MMR over block hashes
(chain.cpp), the disk-backed update-MMR (mmr.cpp / mmr.h), the two-keyed
block-indexed store (index/blockfilter.cpp) and the shared math helpers
(utilmath.cpp).

Machine integers are modelled as `Nat` with explicit `% 2^w` where
overflow can matter.  SHA-256 is modelled as a free constructor of an
inductive `Hash` type: distinct byte-level inputs give distinct values,
and equal inputs give equal values, which is the standard symbolic model
of a collision-free hash.
-/

namespace BitcoinMMR

/-! ## utilmath.cpp : Log2Floor

The 32-bit overload iterates `i` from `sizeof(uint32_t) = 4` down to `0`
over the five-element tables `b` and `S`, which stays in bounds.  The
64-bit overload iterates `i` from `sizeof(uint64_t) = 8` down to `0` over
six-element tables, so its first three table lookups are out of bounds;
we model every lookup with `List.get?` there, an out-of-bounds access
yielding `none`. -/

def l2fB32 : List Nat := [0x2, 0xC, 0xF0, 0xFF00, 0xFFFF0000]

def l2fS32 : List Nat := [1, 2, 4, 8, 16]

def log2floorStep (vr : Nat × Nat) (i : Nat) : Nat × Nat :=
  if vr.1 &&& l2fB32.getD i 0 ≠ 0 then (vr.1 >>> l2fS32.getD i 0, vr.2 ||| l2fS32.getD i 0)
  else vr

/-- `Log2Floor(uint32_t)` from utilmath.cpp: loop `for (i = 4; i >= 0; i--)`
with `v >>= S[i]; r |= S[i]` whenever `v & b[i]` is nonzero. -/
def log2floor32 (v : Nat) : Nat :=
  (([4, 3, 2, 1, 0] : List Nat).foldl log2floorStep (v, 0)).2

def l2fB64 : List Nat :=
  [0x2, 0xC, 0xF0, 0xFF00, 0xFFFF0000, 0xFFFFFFFF00000000]

def l2fS64 : List Nat := [1, 2, 4, 8, 16, 32]

def log2floorStep64 (vr : Nat × Nat) (i : Nat) : Option (Nat × Nat) :=
  match l2fB64.get? i, l2fS64.get? i with
  | some b, some s => some (if vr.1 &&& b ≠ 0 then (vr.1 >>> s, vr.2 ||| s) else vr)
  | _, _ => none

/-- `Log2Floor(uint64_t)` from utilmath.cpp: loop `for (i = 8; i >= 0; i--)`,
whose table accesses `b[8]`, `b[7]`, `b[6]` fall outside the six-entry
tables. -/
def log2floor64 (v : Nat) : Option Nat :=
  ((([8, 7, 6, 5, 4, 3, 2, 1, 0] : List Nat).foldlM log2floorStep64 (v, 0)).map Prod.snd)

/-- Semantic form of one `Log2Floor` loop iteration, with the mask written
as `2^(2m) - 2^m`; the concrete table masks are exactly of this shape. -/
def l2fStepM (m : Nat) (s : Nat × Nat) : Nat × Nat :=
  if s.1 &&& (2 ^ (2 * m) - 2 ^ m) ≠ 0 then (s.1 >>> m, s.2 ||| m) else s

theorem and_mask_extract (v m : Nat) :
    v &&& (2 ^ (2 * m) - 2 ^ m) = v / 2 ^ m % 2 ^ m * 2 ^ m := by
  have hmask : 2 ^ (2 * m) - 2 ^ m = (2 ^ m - 1) <<< m := by
    rw [Nat.shiftLeft_eq_mul_pow, Nat.sub_mul, one_mul, ← pow_add, two_mul]
  have hrhs : v / 2 ^ m % 2 ^ m * 2 ^ m = ((v >>> m) &&& (2 ^ m - 1)) <<< m := by
    rw [Nat.and_pow_two_sub_one_eq_mod, Nat.shiftRight_eq_div_pow, Nat.shiftLeft_eq_mul_pow]
  rw [hmask, hrhs]
  apply Nat.eq_of_testBit_eq
  intro i
  rw [Nat.testBit_and, Nat.testBit_shiftLeft, Nat.testBit_shiftLeft, Nat.testBit_and,
      Nat.testBit_shiftRight, Nat.testBit_two_pow_sub_one]
  rcases le_or_lt m i with h | h
  · have : m + (i - m) = i := by omega
    rw [this]
    cases hb : v.testBit i <;> simp [h]
  · simp [Nat.not_le.mpr h]

theorem mask_test (v m : Nat) (hv : v < 2 ^ (2 * m)) :
    (v &&& (2 ^ (2 * m) - 2 ^ m) ≠ 0) ↔ 2 ^ m ≤ v := by
  have hP : 0 < 2 ^ m := Nat.pos_pow_of_pos m (by norm_num)
  have hdiv : v / 2 ^ m < 2 ^ m := by
    rw [Nat.div_lt_iff_lt_mul hP, ← pow_add]
    rwa [two_mul] at hv
  rw [and_mask_extract, Nat.mod_eq_of_lt hdiv]
  constructor
  · intro h
    by_contra hc
    rw [Nat.not_le] at hc
    rw [Nat.div_eq_of_lt hc] at h
    simp at h
  · intro h hzero
    rcases Nat.mul_eq_zero.mp hzero with h0 | h0
    · rw [Nat.div_eq_zero_iff hP] at h0
      omega
    · omega

theorem l2fStepM_spec (m : Nat) (v0 : Nat) (s : Nat × Nat) (h1 : s.1 ≠ 0)
    (h2 : s.1 < 2 ^ (2 * m)) (h3 : s.1 = v0 >>> s.2) (hor : s.2 ||| m = s.2 + m) :
    ∃ v' r', l2fStepM m s = (v', r') ∧ v' ≠ 0 ∧ v' < 2 ^ m ∧ v' = v0 >>> r' ∧
      (r' = s.2 ∨ r' = s.2 + m) := by
  have hP : 0 < 2 ^ m := Nat.pos_pow_of_pos m (by norm_num)
  unfold l2fStepM
  rcases le_or_lt (2 ^ m) s.1 with hge | hlt
  · rw [if_pos ((mask_test s.1 m h2).mpr hge), hor]
    refine ⟨s.1 >>> m, s.2 + m, rfl, ?_, ?_, ?_, Or.inr rfl⟩
    · rw [Nat.shiftRight_eq_div_pow]
      have h := (Nat.one_le_div_iff hP).mpr hge
      omega
    · rw [Nat.shiftRight_eq_div_pow, Nat.div_lt_iff_lt_mul hP, ← pow_add]
      rwa [two_mul] at h2
    · rw [h3, Nat.shiftRight_add]
  · rw [if_neg]
    · exact ⟨s.1, s.2, rfl, h1, hlt, h3, Or.inl rfl⟩
    · rw [mask_test s.1 m h2]
      omega

theorem or_add32 : ∀ r : Nat, r < 32 →
    ((r % 32 = 0 → r ||| 16 = r + 16) ∧ (r % 16 = 0 → r ||| 8 = r + 8) ∧
     (r % 8 = 0 → r ||| 4 = r + 4) ∧ (r % 4 = 0 → r ||| 2 = r + 2) ∧
     (r % 2 = 0 → r ||| 1 = r + 1)) := by decide

theorem log2floor32_as_stepM (v : Nat) :
    log2floor32 v = (l2fStepM 1 (l2fStepM 2 (l2fStepM 4 (l2fStepM 8 (l2fStepM 16 (v, 0)))))).2 := by
  show (log2floorStep (log2floorStep (log2floorStep (log2floorStep (log2floorStep (v, 0) 4) 3) 2) 1) 0).2 = _
  unfold log2floorStep l2fStepM
  norm_num [l2fB32, l2fS32]

theorem log2_unique (v k : Nat) (h1 : 2 ^ k ≤ v) (h2 : v < 2 ^ (k + 1)) :
    Nat.log2 v = k := by
  have hv0 : v ≠ 0 := by
    have : 0 < 2 ^ k := Nat.pos_pow_of_pos k (by norm_num)
    omega
  have hub : Nat.log2 v ≤ k := by
    by_contra hc
    have hk1 : k + 1 ≤ Nat.log2 v := by omega
    have := Nat.log2_self_le hv0
    have hmono : 2 ^ (k + 1) ≤ 2 ^ Nat.log2 v := Nat.pow_le_pow_right (by norm_num) hk1
    omega
  have hlb : k ≤ Nat.log2 v := by
    by_contra hc
    have hk1 : Nat.log2 v + 1 ≤ k := by omega
    have := @Nat.lt_log2_self v
    have hmono : 2 ^ (Nat.log2 v + 1) ≤ 2 ^ k := Nat.pow_le_pow_right (by norm_num) hk1
    omega
  omega

theorem log2floor32_eq (v : Nat) (hv : v < 2 ^ 32) (hv0 : v ≠ 0) :
    log2floor32 v = Nat.log2 v := by
  rw [log2floor32_as_stepM]
  have hs0 : v = v >>> 0 := rfl
  obtain ⟨v1, r1, he1, hn1, hb1, hs1, hr1⟩ :=
    l2fStepM_spec 16 v (v, 0) hv0 (by norm_num; exact hv) hs0 (by simp)
  rw [he1]
  have hi1 : r1 % 16 = 0 ∧ r1 < 32 := by omega
  obtain ⟨v2, r2, he2, hn2, hb2, hs2, hr2⟩ :=
    l2fStepM_spec 8 v (v1, r1) hn1 (by norm_num; exact hb1) hs1
      ((or_add32 r1 hi1.2).2.1 hi1.1)
  rw [he2]
  have hi2 : r2 % 8 = 0 ∧ r2 < 32 := by omega
  obtain ⟨v3, r3, he3, hn3, hb3, hs3, hr3⟩ :=
    l2fStepM_spec 4 v (v2, r2) hn2 (by norm_num; exact hb2) hs2
      ((or_add32 r2 hi2.2).2.2.1 hi2.1)
  rw [he3]
  have hi3 : r3 % 4 = 0 ∧ r3 < 32 := by omega
  obtain ⟨v4, r4, he4, hn4, hb4, hs4, hr4⟩ :=
    l2fStepM_spec 2 v (v3, r3) hn3 (by norm_num; exact hb3) hs3
      ((or_add32 r3 hi3.2).2.2.2.1 hi3.1)
  rw [he4]
  have hi4 : r4 % 2 = 0 ∧ r4 < 32 := by omega
  obtain ⟨v5, r5, he5, hn5, hb5, hs5, hr5⟩ :=
    l2fStepM_spec 1 v (v4, r4) hn4 (by norm_num; exact hb4) hs4
      ((or_add32 r4 hi4.2).2.2.2.2 hi4.1)
  rw [he5]
  have hone : v >>> r5 = 1 := by
    rw [← hs5]
    omega
  rw [Nat.shiftRight_eq_div_pow] at hone
  have hP : 0 < 2 ^ r5 := Nat.pos_pow_of_pos r5 (by norm_num)
  have hmod := Nat.div_add_mod v (2 ^ r5)
  rw [hone, Nat.mul_one] at hmod
  have hrem : v % 2 ^ r5 < 2 ^ r5 := Nat.mod_lt v hP
  refine (log2_unique v r5 ?_ ?_).symm
  · omega
  · rw [pow_succ]
    omega

/-! ## blockfilter.cpp : MapIntoRange -/

/-- `MapIntoRange` from blockfilter.cpp: piecewise 32-bit multiplication on
uint64 values.  Every intermediate takes `% 2^64` exactly where the C++
computes on `uint64_t`. -/
def mapIntoRange (x n : Nat) : Nat :=
  let x_hi := x >>> 32
  let x_lo := x &&& 0xFFFFFFFF
  let n_hi := n >>> 32
  let n_lo := n &&& 0xFFFFFFFF
  let ac := x_hi * n_hi % 2 ^ 64
  let ad := x_hi * n_lo % 2 ^ 64
  let bc := x_lo * n_hi % 2 ^ 64
  let bd := x_lo * n_lo % 2 ^ 64
  let mid34 := ((bd >>> 32) + (bc &&& 0xFFFFFFFF) + (ad &&& 0xFFFFFFFF)) % 2 ^ 64
  (ac + (bc >>> 32) + (ad >>> 32) + (mid34 >>> 32)) % 2 ^ 64

/-- C5: `MapIntoRange(x, n)` equals the upper 64 bits of the exact 128-bit
product `x * n`, that is `x * n / 2^64`, with no intermediate overflow
affecting the result. -/
theorem mapIntoRange_eq_upper64 (x n : Nat) (hx : x < 2 ^ 64) (hn : n < 2 ^ 64) :
    mapIntoRange x n = x * n / 2 ^ 64 := by
  unfold mapIntoRange
  have hmask : (0xFFFFFFFF : Nat) = 2 ^ 32 - 1 := by norm_num
  simp only [hmask, Nat.and_pow_two_sub_one_eq_mod, Nat.shiftRight_eq_div_pow]
  have h32 : (0:Nat) < 2 ^ 32 := by norm_num
  have hxh : x / 2 ^ 32 < 2 ^ 32 := by
    rw [Nat.div_lt_iff_lt_mul h32]
    norm_num at hx ⊢
    omega
  have hnh : n / 2 ^ 32 < 2 ^ 32 := by
    rw [Nat.div_lt_iff_lt_mul h32]
    norm_num at hn ⊢
    omega
  have hxl : x % 2 ^ 32 < 2 ^ 32 := Nat.mod_lt x h32
  have hnl : n % 2 ^ 32 < 2 ^ 32 := Nat.mod_lt n h32
  have hmul : ∀ a b : Nat, a < 2 ^ 32 → b < 2 ^ 32 → a * b < 2 ^ 64 := by
    intro a b ha hb
    calc a * b < 2 ^ 32 * 2 ^ 32 := Nat.mul_lt_mul'' ha hb
    _ = 2 ^ 64 := by norm_num
  rw [Nat.mod_eq_of_lt (hmul _ _ hxh hnh), Nat.mod_eq_of_lt (hmul _ _ hxh hnl),
      Nat.mod_eq_of_lt (hmul _ _ hxl hnh), Nat.mod_eq_of_lt (hmul _ _ hxl hnl)]
  set A := x / 2 ^ 32 * (n / 2 ^ 32) with hA
  set B := x / 2 ^ 32 * (n % 2 ^ 32) with hB
  set C := x % 2 ^ 32 * (n / 2 ^ 32) with hC
  set D := x % 2 ^ 32 * (n % 2 ^ 32) with hD
  have hBlt : B < 2 ^ 64 := hmul _ _ hxh hnl
  have hClt : C < 2 ^ 64 := hmul _ _ hxl hnh
  have hDlt : D < 2 ^ 64 := hmul _ _ hxl hnl
  have hAlt : A < 2 ^ 64 := hmul _ _ hxh hnh
  have hxn : x * n = A * 2 ^ 64 + (B + C) * 2 ^ 32 + D := by
    have hx' := Nat.div_add_mod x (2 ^ 32)
    have hn' := Nat.div_add_mod n (2 ^ 32)
    calc x * n = (2 ^ 32 * (x / 2 ^ 32) + x % 2 ^ 32) * (2 ^ 32 * (n / 2 ^ 32) + n % 2 ^ 32) := by
          rw [hx', hn']
    _ = A * (2 ^ 32 * 2 ^ 32) + (B + C) * 2 ^ 32 + D := by
          rw [hA, hB, hC, hD]
          ring
    _ = A * 2 ^ 64 + (B + C) * 2 ^ 32 + D := by norm_num
  have hdq : D / 2 ^ 32 < 2 ^ 32 := by
    rw [Nat.div_lt_iff_lt_mul h32]
    calc D < 2 ^ 64 := hDlt
    _ = 2 ^ 32 * 2 ^ 32 := by norm_num
  have hmidlt : D / 2 ^ 32 + C % 2 ^ 32 + B % 2 ^ 32 < 2 ^ 64 := by
    have h1 : C % 2 ^ 32 < 2 ^ 32 := Nat.mod_lt C h32
    have h2 : B % 2 ^ 32 < 2 ^ 32 := Nat.mod_lt B h32
    omega
  have hprodlt : A * 2 ^ 64 + (B + C) * 2 ^ 32 + D < 2 ^ 64 * 2 ^ 64 := by
    rw [← hxn]
    exact Nat.mul_lt_mul'' hx hn
  rw [Nat.mod_eq_of_lt hmidlt, hxn]
  omega

/-- C8: `Log2Floor(0) = 0` and `Log2Floor(v) = ⌊log₂ v⌋` for `v > 0` holds
for the 32-bit overload, whose table lookups are in bounds; the 64-bit
overload's very first table lookup `b[8]` is already out of bounds
(modelled as `none`), so the claim's in-bounds assertion fails there. -/
theorem log2floor_correct :
    log2floor64 1 = none ∧
      ∀ v : Nat, v < 2 ^ 32 → log2floor32 v = if v = 0 then 0 else Nat.log2 v := by
  constructor
  · rfl
  · intro v hv
    by_cases h0 : v = 0
    · subst h0
      rfl
    · rw [if_neg h0]
      exact log2floor32_eq v hv h0

/-- Witness for C8's theorem at `v = 8`. -/
theorem log2floor_correct_witness :
    log2floor32 8 = if (8 : Nat) = 0 then 0 else Nat.log2 8 :=
  log2floor_correct.2 8 (by norm_num)

/-- C5 witness at `x = 2^63 + 5`, `n = 1000`. -/
theorem mapIntoRange_eq_upper64_witness :
    mapIntoRange (2 ^ 63 + 5) 1000 = (2 ^ 63 + 5) * 1000 / 2 ^ 64 :=
  mapIntoRange_eq_upper64 (2 ^ 63 + 5) 1000 (by norm_num) (by norm_num)

/-! ## blockfilter.cpp : GCSFilter::Match and GCSFilter::MatchAny

Both routines re-decode the same Golomb-Rice stream of `m_N` deltas and
accumulate the running value on `uint64_t`; the accumulation is modelled
over the list of decoded deltas with an explicit `% 2^64`.  `HashToRange`
composes SipHash (an external primitive, out of scope per the spec) with
`MapIntoRange`; it enters both routines identically and is abstracted as
a function `h` from elements to queries.  `std::sort` on the hashed
query vector is modelled by `List.insertionSort`, which produces the same
(sorted) vector. -/

def stepVal (value delta : Nat) : Nat := (value + delta) % 2 ^ 64

/-- The scan loop of `GCSFilter::Match`: accumulate decoded deltas, return
true on equality with the query, stop early once the value passes it. -/
def matchValues (q : Nat) (value : Nat) : List Nat → Bool
  | [] => false
  | d :: ds =>
    let v := stepVal value d
    if q = v then true else if q < v then false else matchValues q v ds

/-- The inner advance loop of `GCSFilter::MatchAny`: skip queries below the
current value, report `none` when a query equals it, otherwise return the
remaining queries. -/
def skipQueries (v : Nat) : List Nat → Option (List Nat)
  | [] => some []
  | q :: qs => if q = v then none else if v < q then some (q :: qs) else skipQueries v qs

/-- The outer loop of `GCSFilter::MatchAny` over decoded deltas. -/
def matchAnyValues : List Nat → Nat → List Nat → Bool
  | _, _, [] => false
  | qs, value, d :: ds =>
    let v := stepVal value d
    match skipQueries v qs with
    | none => true
    | some qs' => matchAnyValues qs' v ds

theorem skipQueries_none_iff (v : Nat) (qs : List Nat) (hs : List.Sorted (· ≤ ·) qs) :
    skipQueries v qs = none ↔ v ∈ qs := by
  induction qs with
  | nil => simp [skipQueries]
  | cons q qs ih =>
    rw [List.sorted_cons] at hs
    unfold skipQueries
    by_cases he : q = v
    · simp [he]
    · rw [if_neg he]
      by_cases hlt : v < q
      · rw [if_pos hlt]
        simp only [List.mem_cons]
        constructor
        · intro h
          exact absurd h (by simp)
        · intro h
          rcases h with h | h
          · omega
          · have := hs.1 v h
            omega
      · rw [if_neg hlt]
        rw [ih hs.2]
        simp only [List.mem_cons]
        constructor
        · intro h
          exact Or.inr h
        · intro h
          rcases h with h | h
          · omega
          · exact h

theorem skipQueries_some (v : Nat) : ∀ qs qs' : List Nat, List.Sorted (· ≤ ·) qs →
    skipQueries v qs = some qs' →
    List.Sorted (· ≤ ·) qs' ∧ (∀ q ∈ qs', v < q) ∧
      (∀ q ∈ qs, v < q → q ∈ qs') ∧ (∀ q ∈ qs', q ∈ qs) := by
  intro qs
  induction qs with
  | nil =>
    intro qs' _ h
    unfold skipQueries at h
    cases h
    exact ⟨List.sorted_nil, by simp, by simp, by simp⟩
  | cons q qs ih =>
    intro qs' hs h
    rw [List.sorted_cons] at hs
    unfold skipQueries at h
    by_cases he : q = v
    · simp [he] at h
    · rw [if_neg he] at h
      by_cases hlt : v < q
      · rw [if_pos hlt] at h
        cases h
        refine ⟨List.sorted_cons.mpr hs, ?_, ?_, fun p hp => hp⟩
        · intro p hp
          rcases List.mem_cons.mp hp with h | h
          · omega
          · have := hs.1 p h
            omega
        · intro p hp _
          exact hp
      · rw [if_neg hlt] at h
        obtain ⟨h1, h2, h3, h4⟩ := ih qs' hs.2 h
        refine ⟨h1, h2, ?_, ?_⟩
        · intro p hp hvp
          rcases List.mem_cons.mp hp with h | h
          · omega
          · exact h3 p h hvp
        · intro p hp
          exact List.mem_cons.mpr (Or.inr (h4 p hp))

theorem matchAnyValues_iff (ds : List Nat) :
    ∀ (qs : List Nat) (value : Nat), List.Sorted (· ≤ ·) qs →
      (matchAnyValues qs value ds = true ↔ ∃ q ∈ qs, matchValues q value ds = true) := by
  induction ds with
  | nil =>
    intro qs value _
    simp [matchAnyValues, matchValues]
  | cons d ds ih =>
    intro qs value hs
    unfold matchAnyValues
    rcases hcase : skipQueries (stepVal value d) qs with _ | qs'
    · simp only [hcase]
      refine iff_of_true trivial ⟨stepVal value d, (skipQueries_none_iff _ _ hs).mp hcase, ?_⟩
      unfold matchValues
      simp
    · simp only [hcase]
      obtain ⟨hsort', hgt', hkeep, hsub⟩ := skipQueries_some _ _ _ hs hcase
      rw [ih qs' (stepVal value d) hsort']
      have hnotin : stepVal value d ∉ qs := fun hin => by
        rw [← skipQueries_none_iff _ _ hs] at hin
        rw [hin] at hcase
        cases hcase
      constructor
      · intro ⟨q, hq, hm⟩
        refine ⟨q, hsub q hq, ?_⟩
        unfold matchValues
        have := hgt' q hq
        rw [if_neg (by omega), if_neg (by omega)]
        exact hm
      · intro ⟨q, hq, hm⟩
        unfold matchValues at hm
        by_cases he : q = stepVal value d
        · exact absurd (he ▸ hq) hnotin
        · rw [if_neg he] at hm
          by_cases hlt : q < stepVal value d
          · rw [if_pos hlt] at hm
            cases hm
          · rw [if_neg hlt] at hm
            exact ⟨q, hkeep q hq (by omega), hm⟩

/-- A GCS filter element is an opaque byte string. -/
def GCSElement : Type := List Nat

/-- `GCSFilter::BuildHashedSet`: hash every element of the query set into
its range value and sort the result (`std::sort`, modelled by insertion
sort, which yields the same sorted vector). -/
def buildHashedSet (h : GCSElement → Nat) (elements : List GCSElement) : List Nat :=
  List.insertionSort (· ≤ ·) (elements.map h)

/-- `GCSFilter::Match` on the decoded delta stream: `h` is `HashToRange`,
`deltas` the Golomb-Rice-decoded values of the filter. -/
def gcsMatch (h : GCSElement → Nat) (deltas : List Nat) (element : GCSElement) : Bool :=
  matchValues (h element) 0 deltas

/-- `GCSFilter::MatchAny` on the decoded delta stream. -/
def gcsMatchAny (h : GCSElement → Nat) (deltas : List Nat)
    (elements : List GCSElement) : Bool :=
  matchAnyValues (buildHashedSet h elements) 0 deltas

/-- C6: for every filter (any decoded delta stream) and every element set,
`MatchAny(E)` returns true iff some `e ∈ E` has `Match(e)` true; in
particular `MatchAny` of the empty set is false. -/
theorem gcsMatchAny_iff_exists_match (h : GCSElement → Nat) (deltas : List Nat)
    (elements : List GCSElement) :
    gcsMatchAny h deltas elements = true ↔
      ∃ e ∈ elements, gcsMatch h deltas e = true := by
  unfold gcsMatchAny gcsMatch
  rw [matchAnyValues_iff deltas (buildHashedSet h elements) 0
    (List.sorted_insertionSort (· ≤ ·) (elements.map h))]
  constructor
  · intro ⟨q, hq, hm⟩
    have : q ∈ elements.map h := ((elements.map h).perm_insertionSort (· ≤ ·)).mem_iff.mp hq
    obtain ⟨e, he, rfl⟩ := List.mem_map.mp this
    exact ⟨e, he, hm⟩
  · intro ⟨e, he, hm⟩
    refine ⟨h e, ?_, hm⟩
    exact ((elements.map h).perm_insertionSort (· ≤ ·)).mem_iff.mpr (List.mem_map_of_mem h he)

/-! ## Symbolic hash values

SHA-256 appears in four byte-level shapes in this codebase: over the
64-byte concatenation of two 32-byte hashes (chain MMR, chain.cpp), over
the serialization of two update-MMR entries (u32 count + u256 hash each,
mmr.cpp), over a serialized u64 (the `next_index` commitment), and over a
single serialized entry (the final root wrap).  The four shapes have
pairwise different input lengths, so they are modelled as distinct free
constructors; `blk` stands for an arbitrary 32-byte constant (block
hashes, leaf hashes, the all-zero value). -/

inductive Hash where
  | blk : Nat → Hash
  | hash2 : Hash → Hash → Hash
  | hashEntries : Nat → Hash → Nat → Hash → Hash
  | hashU64 : Nat → Hash
  | hashEntry : Nat → Hash → Hash
deriving DecidableEq, Repr

/-- The all-zero 32-byte value (`uint256()`). -/
def hzero : Hash := Hash.blk 0

/-! ## chain.cpp : the chain MMR

`GetMMREntry(idx, level)` reads the peak cache `m_mmr_entries` filled by
`SetTip` via `ComputeMMRPeak(h, h)`. Its accessor is declared in chain.h,
which is not in the sources; it is modelled from the spec ("the MMR cache
`m_mmr_entries[height]` stores the peak seen after appending the block at
`height`"), as the root of the complete binary subtree of the given
height whose leaf block-hashes end at the given index. -/

/-- Root of the complete MMR subtree at height `b` whose node index at
that level is `i` (covering leaves `[i * 2^b, (i+1) * 2^b)`). -/
def mmrEntryNode (chain : List Hash) (b : Nat) (i : Nat) : Hash :=
  match b with
  | 0 => chain.getD i hzero
  | b + 1 => .hash2 (mmrEntryNode chain b (2 * i)) (mmrEntryNode chain b (2 * i + 1))

/-- Modelled from the spec: `CChain::GetMMREntry` (declared in chain.h,
absent from the sources). Entry at `(idx, level)` is the subtree root at
that level containing leaf `idx`. -/
def getMMREntry (chain : List Hash) (idx b : Nat) : Hash :=
  mmrEntryNode chain b (idx >>> b)

/-- The loop of `CChain::ComputeMMRPeak`: starting from the block hash at
`header_height`, hash with the sibling entry at each bit, ordering left
and right by the bit of `idx`; returns the peak and the branch
(`proof_branch`) of sibling entries. -/
def computeMMRPeakGo (chain : List Hash) (peak : Hash) (idx : Nat) (bit : Nat) :
    Nat → Hash × List Hash
  | 0 => (peak, [])
  | n + 1 =>
    let mask := 2 ^ bit
    let other := getMMREntry chain (idx ^^^ mask) bit
    let peak' := if idx &&& mask ≠ 0 then Hash.hash2 other peak else Hash.hash2 peak other
    let res := computeMMRPeakGo chain peak' (idx ||| mask) (bit + 1) n
    (res.1, other :: res.2)

/-- `CChain::ComputeMMRPeak(header_height, root_height)`; the peak height
is `Log2Floor(static_cast<uint32_t>(header_height ^ (root_height + 1)))`. -/
def computeMMRPeak (chain : List Hash) (headerHeight rootHeight : Nat) : Hash × List Hash :=
  computeMMRPeakGo chain (chain.getD headerHeight hzero) headerHeight 0
    (log2floor32 ((headerHeight ^^^ (rootHeight + 1)) % 2 ^ 32))

/-- The loop of `CChain::GetMMRPeaks`: ascending bit scan of `idx`,
clearing each set bit after emitting `GetMMREntry(idx - 1, bit)`.
(When `idx` is nonzero but has no set bit at or above `bit` the C++ loop
would never terminate; that state is unreachable from the call sites, and
the model returns `[]` there.) -/
def getMMRPeaksGo (chain : List Hash) (idx : Nat) (bit : Nat) : List Hash :=
  if h0 : idx >>> bit = 0 then []
  else if idx.testBit bit then
    getMMREntry chain (idx - 1) bit :: getMMRPeaksGo chain (idx ^^^ 2 ^ bit) (bit + 1)
  else getMMRPeaksGo chain idx (bit + 1)
termination_by idx >>> bit
decreasing_by
  · have h1 : (idx ^^^ 2 ^ bit) >>> (bit + 1) = idx >>> (bit + 1) := by
      apply Nat.eq_of_testBit_eq
      intro i
      rw [Nat.testBit_shiftRight, Nat.testBit_shiftRight, Nat.testBit_xor,
          Nat.testBit_two_pow]
      have : ¬(bit = bit + 1 + i) := by omega
      simp [this]
    have h2 : idx >>> (bit + 1) = (idx >>> bit) / 2 := by
      rw [Nat.shiftRight_eq_div_pow, Nat.shiftRight_eq_div_pow, pow_succ,
          Nat.div_div_eq_div_mul]
    rw [h1, h2]
    exact Nat.div_lt_self (Nat.pos_of_ne_zero h0) (by norm_num)
  · have h2 : idx >>> (bit + 1) = (idx >>> bit) / 2 := by
      rw [Nat.shiftRight_eq_div_pow, Nat.shiftRight_eq_div_pow, pow_succ,
          Nat.div_div_eq_div_mul]
    rw [h2]
    exact Nat.div_lt_self (Nat.pos_of_ne_zero h0) (by norm_num)

/-- `CChain::GetMMRPeaks(root_height)`. -/
def getMMRPeaks (chain : List Hash) (rootHeight : Nat) : List Hash :=
  getMMRPeaksGo chain (rootHeight + 1) 0

/-- The fold `c <- SHA256(c || peak)` used for commitments. -/
def foldPeaks (c : Hash) (peaks : List Hash) : Hash :=
  peaks.foldl (fun acc p => Hash.hash2 acc p) c

/-- `CChain::GenerateMMRCommitment(root_height)`. -/
def generateMMRCommitment (chain : List Hash) (rootHeight : Nat) : Hash :=
  foldPeaks hzero (getMMRPeaks chain rootHeight)

/-- `std::bitset<32>::count`. -/
def popcount (n : Nat) : Nat :=
  if n = 0 then 0 else n % 2 + popcount (n / 2)
decreasing_by exact Nat.div_lt_self (Nat.pos_of_ne_zero (by assumption)) (by norm_num)

/-- `CChain::GenerateMMRProof(header_height, root_height)`: the branch into
the containing peak, then the fold-commitment of all lower peaks, then
every higher peak; also returns the root commitment it accumulates. -/
def generateMMRProof (chain : List Hash) (headerHeight rootHeight : Nat) :
    List Hash × Hash :=
  let idx := rootHeight + 1
  let ph := log2floor32 ((headerHeight ^^^ idx) % 2 ^ 32)
  let nLower := popcount (idx &&& (2 ^ ph - 1))
  let pb := computeMMRPeakGo chain (chain.getD headerHeight hzero) headerHeight 0 ph
  let peaks := getMMRPeaks chain rootHeight
  let lowerC := foldPeaks hzero (peaks.take nLower)
  let rest := peaks.drop (nLower + 1)
  (pb.2 ++ lowerC :: rest, foldPeaks (Hash.hash2 lowerC pb.1) rest)

/-- The branch-replay loop of `VerifyChainMMRProof`: `n` iterations
starting at bit `i`, hashing with `proof[i]` on the side selected by bit
`i` of `header_height` (an out-of-range `proof[i]` reads the default). -/
def verifyBranchLoop (headerHeight : Nat) (proof : List Hash) (c : Hash) (i : Nat) :
    Nat → Hash
  | 0 => c
  | n + 1 =>
    verifyBranchLoop headerHeight proof
      (if headerHeight &&& 2 ^ i ≠ 0 then Hash.hash2 (proof.getD i hzero) c
       else Hash.hash2 c (proof.getD i hzero))
      (i + 1) n

/-- `VerifyChainMMRProof(header_height, root_height, block_hash,
root_commitment, proof)` from chain.cpp. -/
def verifyChainMMRProof (headerHeight rootHeight : Nat) (blockHash : Hash)
    (rootCommitment : Hash) (proof : List Hash) : Bool :=
  let ph := log2floor32 ((headerHeight ^^^ (rootHeight + 1)) % 2 ^ 32)
  let c1 := verifyBranchLoop headerHeight proof blockHash 0 ph
  let c2 := Hash.hash2 (proof.getD ph hzero) c1
  let c3 := foldPeaks c2 (proof.drop (ph + 1))
  decide (c3 = rootCommitment)

/-! Bit-arithmetic toolkit for the chain-MMR proofs. -/

theorem and_two_pow_ne (x b : Nat) : (x &&& 2 ^ b ≠ 0) ↔ x.testBit b = true := by
  rw [Nat.and_two_pow]
  cases h : x.testBit b <;> simp [Nat.pos_pow_of_pos b (by norm_num : (0:Nat) < 2)]

theorem testBit_ge_false (x n i : Nat) (hx : x < 2 ^ n) (hi : n ≤ i) :
    x.testBit i = false :=
  Nat.testBit_lt_two_pow (lt_of_lt_of_le hx (Nat.pow_le_pow_right (by norm_num) hi))

theorem or_mask_shiftRight (h b : Nat) : (h ||| (2 ^ b - 1)) >>> b = h >>> b := by
  apply Nat.eq_of_testBit_eq
  intro i
  rw [Nat.testBit_shiftRight, Nat.testBit_shiftRight, Nat.testBit_or,
      Nat.testBit_two_pow_sub_one]
  simp [Nat.not_lt.mpr (Nat.le_add_right b i)]

theorem or_mask_testBit (h b i : Nat) (hi : b ≤ i) :
    (h ||| (2 ^ b - 1)).testBit i = h.testBit i := by
  rw [Nat.testBit_or, Nat.testBit_two_pow_sub_one]
  simp [Nat.not_lt.mpr hi]

theorem or_mask_or (h b : Nat) : (h ||| (2 ^ b - 1)) ||| 2 ^ b = h ||| (2 ^ (b + 1) - 1) := by
  apply Nat.eq_of_testBit_eq
  intro i
  rw [Nat.testBit_or, Nat.testBit_or, Nat.testBit_or, Nat.testBit_two_pow_sub_one,
      Nat.testBit_two_pow_sub_one, Nat.testBit_two_pow]
  rcases Nat.lt_trichotomy i b with h1 | h1 | h1
  · have ha : i < b + 1 := by omega
    have hb : ¬b = i := by omega
    simp [h1, ha, hb]
  · subst h1
    simp
  · have ha : ¬i < b := by omega
    have hb : ¬i < b + 1 := by omega
    have hc : ¬b = i := by omega
    simp [ha, hb, hc]

theorem xor_two_pow_shiftRight (x b : Nat) : (x ^^^ 2 ^ b) >>> b = (x >>> b) ^^^ 1 := by
  apply Nat.eq_of_testBit_eq
  intro i
  have h1 : (1 : Nat) = 2 ^ 0 := rfl
  rw [Nat.testBit_shiftRight, Nat.testBit_xor, Nat.testBit_xor, Nat.testBit_shiftRight,
      Nat.testBit_two_pow, h1, Nat.testBit_two_pow]
  have hiff : (b = b + i) ↔ (0 = i) := by omega
  simp [hiff]

theorem shiftRight_succ_div (x b : Nat) : x >>> (b + 1) = (x >>> b) / 2 := by
  rw [Nat.shiftRight_eq_div_pow, Nat.shiftRight_eq_div_pow, pow_succ,
      Nat.div_div_eq_div_mul]

theorem shiftRight_decomp (x p : Nat) :
    x >>> p = 2 * (x >>> (p + 1)) + (if x.testBit p then 1 else 0) := by
  rw [shiftRight_succ_div, Nat.shiftRight_eq_div_pow, Nat.testBit_to_div_mod]
  rcases Nat.mod_two_eq_zero_or_one (x / 2 ^ p) with h | h <;> simp [h] <;> omega

theorem xor_clear_shiftRight (x b p : Nat) (hbp : b < p) :
    (x ^^^ 2 ^ b) >>> p = x >>> p := by
  apply Nat.eq_of_testBit_eq
  intro i
  rw [Nat.testBit_shiftRight, Nat.testBit_shiftRight, Nat.testBit_xor, Nat.testBit_two_pow]
  have : ¬b = p + i := by omega
  simp [this]

theorem xor_clear_testBit (x b i : Nat) (hbi : b ≠ i) :
    (x ^^^ 2 ^ b).testBit i = x.testBit i := by
  rw [Nat.testBit_xor, Nat.testBit_two_pow]
  simp [hbi]

theorem xor_self_testBit (x b : Nat) :
    (x ^^^ 2 ^ b).testBit b = !x.testBit b := by
  rw [Nat.testBit_xor, Nat.testBit_two_pow]
  cases h : x.testBit b <;> simp

theorem bits_below_zero_mod (x b : Nat) (h : ∀ j, j < b → x.testBit j = false) :
    x % 2 ^ b = 0 := by
  apply Nat.eq_of_testBit_eq
  intro i
  rw [Nat.testBit_mod_two_pow, Nat.zero_testBit]
  by_cases hi : i < b
  · simp [hi, h i hi]
  · simp [hi]

theorem xor_one_even (k : Nat) : (2 * k) ^^^ 1 = 2 * k + 1 := by
  apply Nat.eq_of_testBit_eq
  intro i
  rw [Nat.testBit_xor]
  cases i with
  | zero =>
    rw [Nat.testBit_zero, Nat.testBit_zero, Nat.testBit_zero]
    simp [Nat.mul_mod_right]
    omega
  | succ i =>
    have h1 : (1 : Nat).testBit (i + 1) = false := by
      have : (1 : Nat) = 2 ^ 0 := rfl
      rw [this, Nat.testBit_two_pow]
      simp
    rw [h1, Nat.testBit_add_one, Nat.testBit_add_one]
    have h2 : 2 * k / 2 = k := by omega
    have h3 : (2 * k + 1) / 2 = k := by omega
    simp [h2, h3]

theorem xor_one_odd (k : Nat) : (2 * k + 1) ^^^ 1 = 2 * k := by
  have h := xor_one_even k
  have : (2 * k + 1) ^^^ 1 = ((2 * k) ^^^ 1) ^^^ 1 := by rw [h]
  rw [this, Nat.xor_assoc]
  simp

theorem popcount_unfold (n : Nat) :
    popcount n = if n = 0 then 0 else n % 2 + popcount (n / 2) := by
  rw [popcount]

theorem popcount_odd (n : Nat) (h : n % 2 = 1) : popcount n = 1 + popcount (n / 2) := by
  rw [popcount_unfold, if_neg (by omega), h]

theorem popcount_even (n : Nat) (h : n % 2 = 0) : popcount n = popcount (n / 2) := by
  by_cases h0 : n = 0
  · subst h0
    rfl
  · rw [popcount_unfold, if_neg h0, h]
    omega

/-- The highest differing bit of `a < b` (position `log2 (a ^^^ b)`): set in
`b`, clear in `a`, and the shifted values differ by exactly one. -/
theorem xor_msb (a b : Nat) (hlt : a < b) :
    b.testBit (Nat.log2 (a ^^^ b)) = true ∧ a.testBit (Nat.log2 (a ^^^ b)) = false ∧
      b >>> Nat.log2 (a ^^^ b) = a >>> Nat.log2 (a ^^^ b) + 1 := by
  set p := Nat.log2 (a ^^^ b) with hp
  have hd0 : a ^^^ b ≠ 0 := fun hc => absurd (Nat.xor_eq_zero.mp hc) (by omega)
  have hPp : (0:Nat) < 2 ^ p := Nat.pos_pow_of_pos p (by norm_num)
  have hd1 : 2 ^ p ≤ a ^^^ b := Nat.log2_self_le hd0
  have hd2 : a ^^^ b < 2 ^ (p + 1) := Nat.lt_log2_self
  have htd : (a ^^^ b).testBit p = true := by
    rw [Nat.testBit_to_div_mod]
    have hlt2 : (a ^^^ b) / 2 ^ p < 2 := by
      rw [Nat.div_lt_iff_lt_mul hPp]
      rw [pow_succ] at hd2
      omega
    have hge1 : 1 ≤ (a ^^^ b) / 2 ^ p := (Nat.one_le_div_iff hPp).mpr hd1
    have heq1 : (a ^^^ b) / 2 ^ p = 1 := by omega
    simp [heq1]
  have hhigh : a >>> (p + 1) = b >>> (p + 1) := by
    apply Nat.eq_of_testBit_eq
    intro i
    rw [Nat.testBit_shiftRight, Nat.testBit_shiftRight]
    by_contra hne
    have hxor : (a ^^^ b).testBit (p + 1 + i) = true := by
      rw [Nat.testBit_xor]
      cases ha : a.testBit (p + 1 + i) <;> cases hb : b.testBit (p + 1 + i) <;> simp_all
    have hf := testBit_ge_false (a ^^^ b) (p + 1) (p + 1 + i) hd2 (by omega)
    rw [hf] at hxor
    cases hxor
  have hbits : ¬a.testBit p = b.testBit p := by
    intro hc
    rw [Nat.testBit_xor, hc] at htd
    simp at htd
  have hda := shiftRight_decomp a p
  have hdb := shiftRight_decomp b p
  have hble : a >>> p ≤ b >>> p := by
    rw [Nat.shiftRight_eq_div_pow, Nat.shiftRight_eq_div_pow]
    exact Nat.div_le_div_right (le_of_lt hlt)
  rw [hhigh] at hda
  cases hbt : b.testBit p
  · cases hat : a.testBit p
    · rw [hat, hbt] at hbits
      exact absurd rfl hbits
    · rw [hat] at hda
      rw [hbt] at hdb
      simp at hda hdb
      omega
  · cases hat : a.testBit p
    · refine ⟨rfl, rfl, ?_⟩
      rw [hat] at hda
      rw [hbt] at hdb
      simp at hda hdb
      omega
    · rw [hat, hbt] at hbits
      exact absurd rfl hbits

theorem computeMMRPeakGo_snd_length (chain : List Hash) :
    ∀ (n : Nat) (peak : Hash) (idx bit : Nat),
      (computeMMRPeakGo chain peak idx bit n).2.length = n := by
  intro n
  induction n with
  | zero => intro peak idx bit; rfl
  | succ n ih =>
    intro peak idx bit
    show (_ :: (computeMMRPeakGo chain _ _ (bit + 1) n).2).length = n + 1
    rw [List.length_cons, ih]

/-- The `ComputeMMRPeak` loop starting at leaf `h` computes the root of the
complete subtree of the final height containing `h`. -/
theorem computeMMRPeakGo_fst (chain : List Hash) (h : Nat) :
    ∀ (n bit : Nat) (peak : Hash), peak = mmrEntryNode chain bit (h >>> bit) →
      (computeMMRPeakGo chain peak (h ||| (2 ^ bit - 1)) bit n).1 =
        mmrEntryNode chain (bit + n) (h >>> (bit + n)) := by
  intro n
  induction n with
  | zero =>
    intro bit peak hpeak
    simpa using hpeak
  | succ n ih =>
    intro bit peak hpeak
    have hcond : ((h ||| (2 ^ bit - 1)) &&& 2 ^ bit ≠ 0) ↔ h.testBit bit = true := by
      rw [and_two_pow_ne, or_mask_testBit h bit bit (le_refl bit)]
    have hother : getMMREntry chain ((h ||| (2 ^ bit - 1)) ^^^ 2 ^ bit) bit =
        mmrEntryNode chain bit ((h >>> bit) ^^^ 1) := by
      unfold getMMREntry
      rw [xor_two_pow_shiftRight, or_mask_shiftRight]
    have hor : (h ||| (2 ^ bit - 1)) ||| 2 ^ bit = h ||| (2 ^ (bit + 1) - 1) :=
      or_mask_or h bit
    have hdec := shiftRight_decomp h bit
    have hdiv : h >>> (bit + 1) = (h >>> bit) / 2 := shiftRight_succ_div h bit
    show (computeMMRPeakGo chain
        (if (h ||| (2 ^ bit - 1)) &&& 2 ^ bit ≠ 0 then
          Hash.hash2 (getMMREntry chain ((h ||| (2 ^ bit - 1)) ^^^ 2 ^ bit) bit) peak
         else Hash.hash2 peak (getMMREntry chain ((h ||| (2 ^ bit - 1)) ^^^ 2 ^ bit) bit))
        ((h ||| (2 ^ bit - 1)) ||| 2 ^ bit) (bit + 1) n).1 =
      mmrEntryNode chain (bit + (n + 1)) (h >>> (bit + (n + 1)))
    rw [hor, hother]
    have hgoal : bit + (n + 1) = (bit + 1) + n := by omega
    rw [hgoal]
    cases hbt : h.testBit bit
    · rw [if_neg (by rw [hcond]; simp [hbt])]
      rw [hbt] at hdec
      simp at hdec
      apply ih (bit + 1)
      have hk : h >>> bit = 2 * (h >>> (bit + 1)) := by omega
      rw [hpeak, hk, xor_one_even]
      rfl
    · rw [if_pos (by rw [hcond]; exact hbt)]
      rw [hbt] at hdec
      simp at hdec
      apply ih (bit + 1)
      have hk : h >>> bit = 2 * (h >>> (bit + 1)) + 1 := by omega
      rw [hpeak, hk, xor_one_odd]
      rfl

theorem getD_append_len {α : Type} (l1 l2 : List α) (d : α) :
    (l1 ++ l2).getD l1.length d = l2.getD 0 d := by
  rw [List.getD_eq_getElem?_getD, List.getElem?_append_right (le_refl _)]
  simp [List.getD_eq_getElem?_getD]

/-- The branch loop of `VerifyChainMMRProof` applied to the branch produced
by the `ComputeMMRPeak` loop recomputes exactly that loop's peak. -/
theorem verifyBranchLoop_replay (chain : List Hash) (hh : Nat) :
    ∀ (n bit : Nat) (pre tail : List Hash) (c : Hash), pre.length = bit →
      verifyBranchLoop hh
          (pre ++ (computeMMRPeakGo chain c (hh ||| (2 ^ bit - 1)) bit n).2 ++ tail)
          c bit n =
        (computeMMRPeakGo chain c (hh ||| (2 ^ bit - 1)) bit n).1 := by
  intro n
  induction n with
  | zero =>
    intro bit pre tail c hlen
    rfl
  | succ n ih =>
    intro bit pre tail c hlen
    have hcond : ((hh ||| (2 ^ bit - 1)) &&& 2 ^ bit ≠ 0) ↔ (hh &&& 2 ^ bit ≠ 0) := by
      rw [and_two_pow_ne, and_two_pow_ne, or_mask_testBit hh bit bit (le_refl bit)]
    set other := getMMREntry chain ((hh ||| (2 ^ bit - 1)) ^^^ 2 ^ bit) bit with hoth
    set rest := computeMMRPeakGo chain
      (if (hh ||| (2 ^ bit - 1)) &&& 2 ^ bit ≠ 0 then Hash.hash2 other c
       else Hash.hash2 c other)
      ((hh ||| (2 ^ bit - 1)) ||| 2 ^ bit) (bit + 1) n with hrest
    have hsnd : (computeMMRPeakGo chain c (hh ||| (2 ^ bit - 1)) bit (n + 1)).2 =
        other :: rest.2 := rfl
    have hfst : (computeMMRPeakGo chain c (hh ||| (2 ^ bit - 1)) bit (n + 1)).1 =
        rest.1 := rfl
    rw [hsnd, hfst]
    have hgetD : (pre ++ (other :: rest.2) ++ tail).getD bit hzero = other := by
      rw [List.append_assoc, ← hlen, getD_append_len]
      rfl
    have hstep : verifyBranchLoop hh (pre ++ (other :: rest.2) ++ tail) c bit (n + 1) =
        verifyBranchLoop hh (pre ++ (other :: rest.2) ++ tail)
          (if hh &&& 2 ^ bit ≠ 0 then
            Hash.hash2 ((pre ++ (other :: rest.2) ++ tail).getD bit hzero) c
           else Hash.hash2 c ((pre ++ (other :: rest.2) ++ tail).getD bit hzero))
          (bit + 1) n := rfl
    rw [hstep, hgetD]
    have hc' : (if hh &&& 2 ^ bit ≠ 0 then Hash.hash2 other c else Hash.hash2 c other) =
        (if (hh ||| (2 ^ bit - 1)) &&& 2 ^ bit ≠ 0 then Hash.hash2 other c
         else Hash.hash2 c other) := by
      by_cases hx : hh &&& 2 ^ bit ≠ 0
      · rw [if_pos hx, if_pos (hcond.mpr hx)]
      · rw [if_neg hx, if_neg (fun hy => hx (hcond.mp hy))]
    have hlist : pre ++ (other :: rest.2) ++ tail = (pre ++ [other]) ++ rest.2 ++ tail := by
      simp
    rw [hlist, hc']
    have hrw : rest = computeMMRPeakGo chain
        (if (hh ||| (2 ^ bit - 1)) &&& 2 ^ bit ≠ 0 then Hash.hash2 other c
         else Hash.hash2 c other)
        (hh ||| (2 ^ (bit + 1) - 1)) (bit + 1) n := by
      rw [hrest, or_mask_or]
    rw [hrw]
    exact ih (bit + 1) (pre ++ [other]) tail _ (by simp [hlen])

theorem mod_two_pow_xor (x b p : Nat) (hbp : b < p) :
    (x ^^^ 2 ^ b) % 2 ^ p = (x % 2 ^ p) ^^^ 2 ^ b := by
  apply Nat.eq_of_testBit_eq
  intro i
  rw [Nat.testBit_mod_two_pow, Nat.testBit_xor, Nat.testBit_xor, Nat.testBit_mod_two_pow,
      Nat.testBit_two_pow]
  by_cases hip : i < p
  · simp [hip]
  · have hbi : ¬b = i := by omega
    simp [hip, hbi]

theorem testBit_shiftRight_parity (m bit : Nat) :
    (m >>> bit) % 2 = if m.testBit bit then 1 else 0 := by
  rw [Nat.shiftRight_eq_div_pow, Nat.testBit_to_div_mod]
  rcases Nat.mod_two_eq_zero_or_one (m / 2 ^ bit) with h | h <;> simp [h]

/-- Splitting the `GetMMRPeaks` enumeration at the peak of height `ph`:
preceded by exactly `popcount` of the low bits many lower peaks. -/
theorem getMMRPeaksGo_split (chain : List Hash) (ph : Nat) :
    ∀ (k bit idx : Nat), bit + k = ph → idx.testBit ph = true →
      (∀ j, j < bit → idx.testBit j = false) →
      ∃ low high, getMMRPeaksGo chain idx bit =
          low ++ mmrEntryNode chain ph ((idx >>> ph) - 1) :: high ∧
        low.length = popcount ((idx % 2 ^ ph) >>> bit) := by
  intro k
  induction k with
  | zero =>
    intro bit idx hbk htb hlow
    have hbp : bit = ph := by omega
    subst hbp
    have hP : (0:Nat) < 2 ^ bit := Nat.pos_pow_of_pos bit (by norm_num)
    have hs0 : idx >>> bit ≠ 0 := by
      intro hc
      rw [Nat.shiftRight_eq_div_pow] at hc
      rw [Nat.testBit_to_div_mod, hc] at htb
      simp at htb
    rw [getMMRPeaksGo, dif_neg hs0, if_pos htb]
    refine ⟨[], getMMRPeaksGo chain (idx ^^^ 2 ^ bit) (bit + 1), ?_, ?_⟩
    · have hmod0 : idx % 2 ^ bit = 0 := bits_below_zero_mod idx bit hlow
      have hdm := Nat.div_add_mod idx (2 ^ bit)
      rw [hmod0, Nat.add_zero] at hdm
      have hq1 : 1 ≤ idx / 2 ^ bit :=
        Nat.pos_of_ne_zero (by rw [Nat.shiftRight_eq_div_pow] at hs0; exact hs0)
      obtain ⟨q', hq'⟩ : ∃ q', idx / 2 ^ bit = q' + 1 := ⟨idx / 2 ^ bit - 1, by omega⟩
      have hmulsucc : 2 ^ bit * (q' + 1) = 2 ^ bit * q' + 2 ^ bit := Nat.mul_succ (2 ^ bit) q'
      have hidx1 : idx - 1 = (2 ^ bit - 1) + 2 ^ bit * q' := by
        have hx : 2 ^ bit * q' + 2 ^ bit = idx := by rw [← hmulsucc, ← hq', hdm]
        omega
      have hdivq : (idx - 1) >>> bit = (idx >>> bit) - 1 := by
        rw [Nat.shiftRight_eq_div_pow, Nat.shiftRight_eq_div_pow, hidx1,
            Nat.add_mul_div_left _ _ hP, Nat.div_eq_of_lt (by omega), hq']
        omega
      rw [List.nil_append]
      unfold getMMREntry
      rw [hdivq]
    · have hmod0 : idx % 2 ^ bit = 0 := bits_below_zero_mod idx bit hlow
      rw [hmod0]
      have h0 : (0 : Nat) >>> bit = 0 := by
        rw [Nat.shiftRight_eq_div_pow]
        exact Nat.zero_div _
      rw [h0]
      simp [popcount_unfold]
  | succ k ih =>
    intro bit idx hbk htb hlow
    have hP : (0:Nat) < 2 ^ bit := Nat.pos_pow_of_pos bit (by norm_num)
    have hs0 : idx >>> bit ≠ 0 := by
      intro hc
      rw [Nat.shiftRight_eq_div_pow] at hc
      have hlt : idx < 2 ^ bit := by
        rcases Nat.lt_or_ge idx (2 ^ bit) with h | h
        · exact h
        · have h1 := (Nat.one_le_div_iff hP).mpr h
          omega
      have := testBit_ge_false idx bit ph hlt (by omega)
      rw [this] at htb
      cases htb
    have hbitlt : bit < ph := by omega
    rw [getMMRPeaksGo, dif_neg hs0]
    cases hbit : idx.testBit bit
    · rw [if_neg (by simp [hbit])]
      obtain ⟨low, high, heq, hlen⟩ := ih (bit + 1) idx (by omega) htb
        (fun j hj => by
          rcases Nat.lt_or_ge j bit with h | h
          · exact hlow j h
          · have hj' : j = bit := by omega
            rw [hj']
            exact hbit)
      refine ⟨low, high, heq, ?_⟩
      rw [hlen]
      have hpar : ((idx % 2 ^ ph) >>> bit) % 2 = 0 := by
        rw [testBit_shiftRight_parity, Nat.testBit_mod_two_pow]
        simp [hbitlt, hbit]
      conv_rhs => rw [popcount_even _ hpar]
      rw [← shiftRight_succ_div]
    · rw [if_pos rfl]
      obtain ⟨low, high, heq, hlen⟩ := ih (bit + 1) (idx ^^^ 2 ^ bit) (by omega)
        (by rw [xor_clear_testBit idx bit ph (by omega)]; exact htb)
        (fun j hj => by
          rcases Nat.lt_or_ge j bit with h | h
          · rw [xor_clear_testBit idx bit j (by omega)]
            exact hlow j h
          · have hj' : j = bit := by omega
            rw [hj', xor_self_testBit, hbit]
            rfl)
      rw [xor_clear_shiftRight idx bit ph hbitlt] at heq
      refine ⟨getMMREntry chain (idx - 1) bit :: low, high, by rw [heq]; rfl, ?_⟩
      rw [List.length_cons, hlen]
      have hm' : (idx ^^^ 2 ^ bit) % 2 ^ ph = (idx % 2 ^ ph) ^^^ 2 ^ bit :=
        mod_two_pow_xor idx bit ph hbitlt
      have hshift : ((idx ^^^ 2 ^ bit) % 2 ^ ph) >>> (bit + 1) =
          (idx % 2 ^ ph) >>> (bit + 1) := by
        rw [hm', xor_clear_shiftRight _ bit (bit + 1) (by omega)]
      rw [hshift]
      have hpar : ((idx % 2 ^ ph) >>> bit) % 2 = 1 := by
        rw [testBit_shiftRight_parity, Nat.testBit_mod_two_pow]
        simp [hbitlt, hbit]
      conv_rhs => rw [popcount_odd _ hpar]
      rw [← shiftRight_succ_div]
      omega

theorem verifyBranchLoop_replay0 (chain : List Hash) (hh n : Nat) (tail : List Hash)
    (c : Hash) :
    verifyBranchLoop hh ((computeMMRPeakGo chain c hh 0 n).2 ++ tail) c 0 n =
      (computeMMRPeakGo chain c hh 0 n).1 := by
  have h0 : hh ||| (2 ^ 0 - 1) = hh := by simp
  have hx := verifyBranchLoop_replay chain hh n 0 [] tail c rfl
  rw [h0] at hx
  simpa using hx

theorem computeMMRPeakGo_fst0 (chain : List Hash) (h n : Nat) :
    (computeMMRPeakGo chain (chain.getD h hzero) h 0 n).1 =
      mmrEntryNode chain n (h >>> n) := by
  have h0 : h ||| (2 ^ 0 - 1) = h := by simp
  have hp : chain.getD h hzero = mmrEntryNode chain 0 (h >>> 0) := rfl
  have hx := computeMMRPeakGo_fst chain h n 0 (chain.getD h hzero) hp
  rw [h0] at hx
  simpa using hx

theorem foldPeaks_append (c : Hash) (l1 l2 : List Hash) :
    foldPeaks c (l1 ++ l2) = foldPeaks (foldPeaks c l1) l2 :=
  List.foldl_append ..

/-- C1: chain-MMR proof soundness.  For every chain of block hashes and
every pair `(h, r)` with `h ≤ r < chain length`, verifying the generated
proof of the block hash at height `h` against the commitment at root
height `r` returns true. -/
theorem chainMMRProof_sound (chain : List Hash) (h r : Nat) (hhr : h ≤ r)
    (_hr : r < chain.length) (h32 : r + 1 < 2 ^ 32) :
    verifyChainMMRProof h r (chain.getD h hzero) (generateMMRCommitment chain r)
      (generateMMRProof chain h r).1 = true := by
  have hhlt : h < r + 1 := by omega
  have hxne : h ^^^ (r + 1) ≠ 0 := fun hc => by
    have := Nat.xor_eq_zero.mp hc
    omega
  have hxlt : h ^^^ (r + 1) < 2 ^ 32 := Nat.xor_lt_two_pow (by omega) h32
  have hl2f : log2floor32 ((h ^^^ (r + 1)) % 2 ^ 32) = Nat.log2 (h ^^^ (r + 1)) := by
    rw [Nat.mod_eq_of_lt hxlt]
    exact log2floor32_eq _ hxlt hxne
  obtain ⟨htbi, htbh, hshift⟩ := xor_msb h (r + 1) hhlt
  unfold verifyChainMMRProof generateMMRProof generateMMRCommitment getMMRPeaks
  simp only [hl2f]
  set p := Nat.log2 (h ^^^ (r + 1)) with hp
  set branch := (computeMMRPeakGo chain (chain.getD h hzero) h 0 p).2 with hbr
  set peakV := (computeMMRPeakGo chain (chain.getD h hzero) h 0 p).1 with hpk
  set nL := popcount ((r + 1) &&& (2 ^ p - 1)) with hnL
  obtain ⟨low, high, hpeq, hlen⟩ :=
    getMMRPeaksGo_split chain p p 0 (r + 1) (by omega) htbi
      (fun j hj => absurd hj (Nat.not_lt_zero j))
  have hnode : (r + 1) >>> p - 1 = h >>> p := by
    rw [hshift]
    exact Nat.add_sub_cancel ..
  rw [hnode] at hpeq
  have hlenL : nL = low.length := by
    rw [hnL, Nat.and_pow_two_sub_one_eq_mod, hlen, Nat.shiftRight_zero]
  have hblen : branch.length = p := computeMMRPeakGo_snd_length chain p _ h 0
  rw [hpeq]
  have htake : (low ++ mmrEntryNode chain p (h >>> p) :: high).take nL = low := by
    rw [hlenL]
    exact List.take_left low _
  have hdropP : (low ++ mmrEntryNode chain p (h >>> p) :: high).drop (nL + 1) = high := by
    rw [hlenL, ← List.drop_drop, List.drop_left]
    rfl
  rw [htake, hdropP]
  set lowerC := foldPeaks hzero low with hlc
  have hreplay : verifyBranchLoop h (branch ++ lowerC :: high) (chain.getD h hzero) 0 p =
      peakV := verifyBranchLoop_replay0 chain h p (lowerC :: high) (chain.getD h hzero)
  have hgetD : (branch ++ lowerC :: high).getD p hzero = lowerC := by
    rw [← hblen, getD_append_len]
    rfl
  have hdropV : (branch ++ lowerC :: high).drop (p + 1) = high := by
    have hsplit2 : branch ++ lowerC :: high = (branch ++ [lowerC]) ++ high := by simp
    have hlen2 : p + 1 = (branch ++ [lowerC]).length := by simp [hblen]
    rw [hsplit2, hlen2, List.drop_left]
  rw [hreplay, hgetD, hdropV]
  have hpeakV : peakV = mmrEntryNode chain p (h >>> p) := computeMMRPeakGo_fst0 chain h p
  rw [hpeakV]
  have hcommit : foldPeaks hzero (low ++ mmrEntryNode chain p (h >>> p) :: high) =
      foldPeaks (Hash.hash2 lowerC (mmrEntryNode chain p (h >>> p))) high := by
    rw [foldPeaks_append, hlc]
    rfl
  rw [hcommit]
  simp

/-- Witness for C1 at the one-block chain, `h = r = 0`. -/
theorem chainMMRProof_sound_witness :
    verifyChainMMRProof 0 0 (([hzero] : List Hash).getD 0 hzero)
      (generateMMRCommitment [hzero] 0) (generateMMRProof [hzero] 0 0).1 = true :=
  chainMMRProof_sound [hzero] 0 0 (by norm_num) (by norm_num) (by norm_num)

theorem peaksGo_step_true (chain : List Hash) (idx bit : Nat) (h1 : idx >>> bit ≠ 0)
    (h2 : idx.testBit bit = true) :
    getMMRPeaksGo chain idx bit =
      getMMREntry chain (idx - 1) bit :: getMMRPeaksGo chain (idx ^^^ 2 ^ bit) (bit + 1) := by
  rw [getMMRPeaksGo, dif_neg h1, if_pos h2]

theorem peaksGo_step_false (chain : List Hash) (idx bit : Nat) (h1 : idx >>> bit ≠ 0)
    (h2 : idx.testBit bit = false) :
    getMMRPeaksGo chain idx bit = getMMRPeaksGo chain idx (bit + 1) := by
  rw [getMMRPeaksGo, dif_neg h1]
  simp [h2]

theorem peaksGo_stop (chain : List Hash) (idx bit : Nat) (h1 : idx >>> bit = 0) :
    getMMRPeaksGo chain idx bit = [] := by
  rw [getMMRPeaksGo, dif_pos h1]

theorem peaks4_two_eval (h0 h1 h2 h3 : Hash) :
    getMMRPeaks [h0, h1, h2, h3] 2 = [h2, Hash.hash2 h0 h1] := by
  unfold getMMRPeaks
  rw [peaksGo_step_true _ 3 0 (by decide) (by decide)]
  have hx1 : (3 : Nat) ^^^ 2 ^ 0 = 2 := by decide
  rw [hx1, peaksGo_step_true _ 2 1 (by decide) (by decide)]
  have hx2 : (2 : Nat) ^^^ 2 ^ 1 = 0 := by decide
  rw [hx2, peaksGo_stop _ 0 2 (by decide)]
  rfl

theorem peaks4_three_eval (h0 h1 h2 h3 : Hash) :
    getMMRPeaks [h0, h1, h2, h3] 3 =
      [Hash.hash2 (Hash.hash2 h0 h1) (Hash.hash2 h2 h3)] := by
  unfold getMMRPeaks
  rw [peaksGo_step_false _ 4 0 (by decide) (by decide),
      peaksGo_step_false _ 4 1 (by decide) (by decide),
      peaksGo_step_true _ 4 2 (by decide) (by decide)]
  have hx : (4 : Nat) ^^^ 2 ^ 2 = 0 := by decide
  rw [hx, peaksGo_stop _ 0 3 (by decide)]
  rfl

/-- C7 counterexample: on the chain `h0..h3`, `GetMMRPeaks(2)` does not
return `[SHA256(h0‖h1), h2]` — the enumeration is by ascending bit of
`r + 1 = 3`, so the height-0 peak `h2` comes first. -/
theorem getMMRPeaks_two_counterexample :
    getMMRPeaks [Hash.blk 0, Hash.blk 1, Hash.blk 2, Hash.blk 3] 2 ≠
      [Hash.hash2 (Hash.blk 0) (Hash.blk 1), Hash.blk 2] := by
  rw [peaks4_two_eval]
  decide

/-- C7 (amended): on a chain of four block hashes, `GetMMRPeaks(3)` is the
single peak `SHA256(SHA256(h0‖h1) ‖ SHA256(h2‖h3))`, and `GetMMRPeaks(2)`
returns its two peaks in ascending bit order with the height-0 peak
first: `[h2, SHA256(h0‖h1)]`. -/
theorem getMMRPeaks_of_four (h0 h1 h2 h3 : Hash) :
    getMMRPeaks [h0, h1, h2, h3] 3 =
        [Hash.hash2 (Hash.hash2 h0 h1) (Hash.hash2 h2 h3)] ∧
      getMMRPeaks [h0, h1, h2, h3] 2 = [h2, Hash.hash2 h0 h1] :=
  ⟨peaks4_three_eval h0 h1 h2 h3, peaks4_two_eval h0 h1 h2 h3⟩

/-! ## mmr.cpp : the disk-backed update-MMR

An entry is a `(u32 count, u256 hash)` pair.  The store maps an index to
its entry list (the value `ReadEntries` returns after deserializing; the
byte-level entry-list codec is modelled separately below for C4).  The
peak cache is kept as a list whose head is the most recent peak, i.e. the
C++ `m_peak_cache.back()`; `RootHash` iterates `rbegin()..rend()`, which
is this list front to back. -/

structure UEntry where
  count : Nat
  hash : Hash
deriving DecidableEq, Repr

/-- `MMRDB::Entry::Clear()` / a default-constructed entry. -/
def uzero : UEntry := ⟨0, hzero⟩

/-- SHA-256 of `serialize(left) || serialize(right)` for two entries. -/
def hashEntriesE (l r : UEntry) : Hash :=
  Hash.hashEntries l.count l.hash r.count r.hash

/-- `PeakHeight(idx, total)` from mmr.cpp, including the
`static_cast<uint32_t>` of the xor. -/
def peakHeight (idx total : Nat) : Nat :=
  log2floor32 ((idx ^^^ total) % 2 ^ 32)

/-- `EntryListSize(idx)` from mmr.cpp. -/
def entryListSize (idx : Nat) : Nat := peakHeight idx (idx + 1) + 1

/-- `MMRDB::EntryList::Empty()`. -/
def entryListEmpty (l : List UEntry) : Bool := l.all (fun e => e.count = 0)

/-- In-memory MMR state: the store contents, the persisted `next_index`
scalar, the in-memory `m_next_index` and `m_peak_cache`. -/
structure MMRState where
  db : Nat → Option (List UEntry)
  dbNext : Nat
  next : Nat
  cache : List UEntry

/-- `MMRDB::ReadEntries`: a present list of the wrong size is a corruption
error; an absent key reads as the cleared list of the expected size. -/
def readEntriesS (db : Nat → Option (List UEntry)) (idx : Nat) : Option (List UEntry) :=
  match db idx with
  | some l => if l.length = entryListSize idx then some l else none
  | none => some (List.replicate (entryListSize idx) uzero)

/-- `MMRDB::WriteEntries`: an empty list erases the key. -/
def writeEntriesS (db : Nat → Option (List UEntry)) (idx : Nat) (l : List UEntry) :
    Nat → Option (List UEntry) :=
  fun j => if j = idx then (if entryListEmpty l then none else some l) else db j

/-- The entry-list construction loop of `MMR::Append` for heights
`1..peak_height`: each level consumes the back of the peak cache as the
left sibling; returns the built list (height 0 first) and the remaining
cache.  (Popping an empty cache is undefined behavior in the C++; the
model reads a default entry there.) -/
def appendEntries (e : UEntry) (cache : List UEntry) : Nat → List UEntry × List UEntry
  | 0 => ([e], cache)
  | ph + 1 =>
    let r := appendEntries e cache ph
    let left := r.2.headD uzero
    let prev := r.1.getLastD e
    let parent : UEntry := ⟨(left.count + prev.count) % 2 ^ 32, hashEntriesE left prev⟩
    (r.1 ++ [parent], r.2.tail)

/-- `MMR::Append(batch, entry)` with the batch writes applied to the store
(appends touch pairwise-distinct fresh keys and never read the store, so
batch buffering is unobservable here). -/
def appendOne (s : MMRState) (e : UEntry) : MMRState :=
  let index := s.next
  let next' := (index + 1) % 2 ^ 64
  let ph := peakHeight index next'
  let r := appendEntries e s.cache ph
  { db := writeEntriesS s.db index r.1
    dbNext := next'
    next := next'
    cache := r.1.getLastD e :: r.2 }

def appendMany (s : MMRState) (es : List UEntry) : MMRState :=
  es.foldl appendOne s

/-- `MMR::RefreshPeakCache`: walk the set bits of `next_index` from the
most recent peak down, reading each peak's entry list. -/
def refreshPeaks (db : Nat → Option (List UEntry)) (ni : Nat) : Option (List UEntry) :=
  if _h0 : ni = 0 then some []
  else
    match readEntriesS db (ni - 1) with
    | none => none
    | some l =>
      match refreshPeaks db (ni &&& (ni - 1)) with
      | none => none
      | some rest => some (l.getLastD uzero :: rest)
termination_by ni
decreasing_by
  have h1 : ni &&& (ni - 1) ≤ ni - 1 := Nat.and_le_right
  omega

/-- The store after `MMR::Rewind` erased the entry lists of the removed
index range. -/
def rewindDb (db : Nat → Option (List UEntry)) (newNext oldNext : Nat) :
    Nat → Option (List UEntry) :=
  fun j => if newNext ≤ j ∧ j < oldNext then none else db j

/-- `MMR::Rewind(hashes_count)`: write back the reduced `next_index`,
erase the entry lists of the removed range, then rebuild the peak cache
(`none` models the failed `assert(RefreshPeakCache())`). -/
def rewindOp (s : MMRState) (n : Nat) : Option MMRState :=
  match refreshPeaks (rewindDb s.db (s.next - n) s.next) (s.next - n) with
  | some c => some ⟨rewindDb s.db (s.next - n) s.next, s.next - n, s.next - n, c⟩
  | none => none

/-- `MMR::RootHash()`: start from the commitment to `next_index`, fold
every peak from the most recent to the oldest, wrap once more. -/
def rootHash (s : MMRState) : Hash :=
  let root := s.cache.foldl
    (fun root peak =>
      (⟨(peak.count + root.count) % 2 ^ 32, hashEntriesE peak root⟩ : UEntry))
    ⟨0, Hash.hashU64 s.next⟩
  Hash.hashEntry root.count root.hash

theorem appendMany_next_db (es : List UEntry) :
    ∀ s : MMRState, s.next + es.length < 2 ^ 64 →
      (appendMany s es).next = s.next + es.length ∧
        ∀ j, j < s.next → (appendMany s es).db j = s.db j := by
  induction es with
  | nil => intro s _; exact ⟨by simp [appendMany], fun j _ => rfl⟩
  | cons e es ih =>
    intro s hb
    have hstep : (appendOne s e).next = s.next + 1 := by
      show (s.next + 1) % 2 ^ 64 = s.next + 1
      apply Nat.mod_eq_of_lt
      simp at hb
      omega
    have hb' : (appendOne s e).next + es.length < 2 ^ 64 := by
      rw [hstep]
      simp at hb
      omega
    obtain ⟨ihn, ihd⟩ := ih (appendOne s e) hb'
    constructor
    · show (appendMany (appendOne s e) es).next = s.next + (es.length + 1)
      rw [ihn, hstep]
      omega
    · intro j hj
      show (appendMany (appendOne s e) es).db j = s.db j
      rw [ihd j (by rw [hstep]; omega)]
      show writeEntriesS s.db s.next _ j = s.db j
      unfold writeEntriesS
      rw [if_neg (by omega)]

theorem refreshPeaks_congr (db1 db2 : Nat → Option (List UEntry)) :
    ∀ ni : Nat, (∀ j, j < ni → db1 j = db2 j) →
      refreshPeaks db1 ni = refreshPeaks db2 ni := by
  intro ni
  induction ni using Nat.strong_induction_on with
  | _ ni ih =>
    intro hagree
    rw [refreshPeaks]
    conv_rhs => rw [refreshPeaks]
    by_cases h0 : ni = 0
    · rw [dif_pos h0, dif_pos h0]
    · rw [dif_neg h0, dif_neg h0]
      have hlt : ni - 1 < ni := by omega
      have hread : readEntriesS db1 (ni - 1) = readEntriesS db2 (ni - 1) := by
        unfold readEntriesS
        rw [hagree (ni - 1) hlt]
      rw [hread]
      have hand : ni &&& (ni - 1) < ni := by
        have h2 : ni &&& (ni - 1) ≤ ni - 1 := Nat.and_le_right
        omega
      have hrec : refreshPeaks db1 (ni &&& (ni - 1)) =
          refreshPeaks db2 (ni &&& (ni - 1)) :=
        ih (ni &&& (ni - 1)) hand (fun j hj => hagree j (by omega))
      rw [hrec]

/-- C3: appending `n` entries and rewinding by `n` restores `next_index`,
the peak cache, and hence the root hash, from any state whose peak cache
is consistent with the store (as every reachable state's is, the cache
being rebuilt from the store by the constructor and every rewind). -/
theorem append_rewind_roundtrip (s : MMRState) (es : List UEntry)
    (hwf : refreshPeaks s.db s.next = some s.cache)
    (hbound : s.next + es.length < 2 ^ 64) :
    ∃ s', rewindOp (appendMany s es) es.length = some s' ∧
      s'.next = s.next ∧ s'.cache = s.cache ∧ rootHash s' = rootHash s := by
  obtain ⟨hnext, hdb⟩ := appendMany_next_db es s hbound
  unfold rewindOp
  rw [hnext]
  have hsub : s.next + es.length - es.length = s.next := by omega
  rw [hsub]
  have hagree : ∀ j, j < s.next →
      rewindDb (appendMany s es).db s.next (s.next + es.length) j = s.db j := by
    intro j hj
    show (if s.next ≤ j ∧ j < s.next + es.length then none
          else (appendMany s es).db j) = s.db j
    rw [if_neg (by omega)]
    exact hdb j hj
  rw [refreshPeaks_congr
    (rewindDb (appendMany s es).db s.next (s.next + es.length)) s.db s.next hagree, hwf]
  refine ⟨_, rfl, rfl, rfl, ?_⟩
  unfold rootHash
  rfl

def emptyMMRState : MMRState := ⟨fun _ => none, 0, 0, []⟩

/-- Witness for C3: one append then `Rewind(1)` from the empty MMR. -/
theorem append_rewind_roundtrip_witness :
    ∃ s', rewindOp (appendMany emptyMMRState [⟨1, Hash.blk 7⟩]) 1 = some s' ∧
      s'.next = emptyMMRState.next ∧ s'.cache = emptyMMRState.cache ∧
      rootHash s' = rootHash emptyMMRState := by
  have h := append_rewind_roundtrip emptyMMRState [⟨1, Hash.blk 7⟩]
    (by rw [refreshPeaks]; rfl) (by norm_num [emptyMMRState])
  simpa using h

/-- The `index >= next_index` branch of `MMR::Insert` for a single leaf:
zero-count appends fill the gap up to `index`, then the leaf itself is
appended with count 1. -/
def insertExtend (s : MMRState) (index : Nat) (hash : Hash) : MMRState :=
  appendOne (appendMany s (List.replicate (index - s.next) uzero)) ⟨1, hash⟩

/-- The exact-representability invariant the entry-list codec relies on
(claim C10): the height-0 entry has count 0 or 1, and the maximal initial
run of count-1 entries starting at the first non-empty height carries a
single hash. -/
def representableU (l : List UEntry) : Bool :=
  let afterEmpty := l.dropWhile (fun e => e.count == 0)
  decide ((l.getD 0 uzero).count ≤ 1) &&
    (match afterEmpty with
     | [] => true
     | e0 :: _ => (afterEmpty.takeWhile (fun e => e.count == 1)).all
        (fun e => e.hash == e0.hash))

/-- C10 fails on the code: inserting a single leaf at index 1 into an
empty MMR (a gap insert) stores at index 1 the list
`[(1, h), (1, SHA256(ser(0, 0̄) ‖ ser(1, h)))]`, whose initial count-1 run
carries two different hashes — `MMR::Append` hashes a zero-count left peak
with the new leaf instead of propagating the leaf as `UpdateParents`
does, so the stored list is not exactly representable by the codec. -/
theorem insert_gap_not_representable :
    (insertExtend emptyMMRState 1 (Hash.blk 7)).db 1 =
        some [⟨1, Hash.blk 7⟩, ⟨1, Hash.hashEntries 0 hzero 1 (Hash.blk 7)⟩] ∧
      representableU
        [⟨1, Hash.blk 7⟩, ⟨1, Hash.hashEntries 0 hzero 1 (Hash.blk 7)⟩] = false := by
  constructor
  · rfl
  · rfl

/-! ## mmr.h : the compressed entry-list codec, at byte level

`MMRDB::EntryList::Serialize/Unserialize` with `Entry` serialized as a
4-byte little-endian `u32` count followed by the 32 raw bytes of the
`u256` hash.  A hash value is a `Nat < 2^256` standing for those 32
bytes. -/

structure CEntry where
  count : Nat
  hash : Nat
deriving DecidableEq, Repr

def czero : CEntry := ⟨0, 0⟩

/-- Little-endian byte encoding of width `w`. -/
def toLE : Nat → Nat → List Nat
  | 0, _ => []
  | w + 1, v => v % 256 :: toLE w (v / 256)

def fromLE : List Nat → Nat
  | [] => 0
  | b :: bs => b + 256 * fromLE bs

/-- `Entry::SerializationOp`: `u32 count || u256 hash`. -/
def serEntry (e : CEntry) : List Nat := toLE 4 e.count ++ toLE 32 e.hash

/-- The scan loops of `EntryList::Serialize`:
`while (height < max_height && pred(m_entries[height])) ++height`, with
`remaining = max_height - height` iterations left. -/
def scanFrom (p : CEntry → Bool) (l : List CEntry) (h : Nat) : Nat → Nat
  | 0 => h
  | r + 1 => if p (l.getD h czero) then scanFrom p l (h + 1) r else h

/-- `EntryList::Serialize`: `u8 terminal_h || u8 middle_h || u8 max_h`,
one hash for the count-1 run when `terminal_h < middle_h`, then the full
entries from `middle_h` up.  (`max_height` is the `uint8_t` truncation of
the vector size.) -/
def serEntryList (l : List CEntry) : List Nat :=
  let maxH := l.length % 256
  let t := scanFrom (fun e => e.count == 0) l 0 maxH
  let m := scanFrom (fun e => e.count == 1) l t (maxH - t)
  t :: m :: maxH ::
    ((if t < m then toLE 32 (l.getD t czero).hash else []) ++
      ((List.range (maxH - m)).map (fun j => serEntry (l.getD (m + j) czero))).flatten)

def readBytes (n : Nat) (bs : List Nat) : Option (List Nat × List Nat) :=
  if n ≤ bs.length then some (bs.take n, bs.drop n) else none

def readEntrySer (bs : List Nat) : Option (CEntry × List Nat) :=
  match readBytes 4 bs with
  | some (cb, r1) =>
    match readBytes 32 r1 with
    | some (hb, r2) => some (⟨fromLE cb, fromLE hb⟩, r2)
    | none => none
  | none => none

def readEntriesSer : Nat → List Nat → Option (List CEntry × List Nat)
  | 0, bs => some ([], bs)
  | n + 1, bs =>
    match readEntrySer bs with
    | some (e, r) =>
      match readEntriesSer n r with
      | some (es, r2) => some (e :: es, r2)
      | none => none
    | none => none

/-- `EntryList::Unserialize`; a stream whose three header bytes are not
ordered `terminal ≤ middle ≤ max` makes the C++ write outside the resized
vector (undefined behavior), modelled as failure.  Returns the decoded
list and the unconsumed remainder of the stream. -/
def deserEntryList (bytes : List Nat) : Option (List CEntry × List Nat) :=
  match bytes with
  | t :: m :: mx :: rest =>
    if t ≤ m ∧ m ≤ mx then
      if t < m then
        match readBytes 32 rest with
        | some (hb, r1) =>
          match readEntriesSer (mx - m) r1 with
          | some (es, r2) =>
            some (List.replicate t czero ++
              List.replicate (m - t) ⟨1, fromLE hb⟩ ++ es, r2)
          | none => none
        | none => none
      else
        match readEntriesSer (mx - m) rest with
        | some (es, r2) => some (List.replicate t czero ++ es, r2)
        | none => none
    else none
  | _ => none

/-- `MMRDB::ReadEntries` over raw stored bytes: the deserialized list must
have exactly `EntryListSize(index)` entries, otherwise the read is a
corruption error; an absent key reads as cleared. -/
def readEntriesB (db : Nat → Option (List Nat)) (idx : Nat) : Option (List CEntry) :=
  match db idx with
  | some bytes =>
    match deserEntryList bytes with
    | some (l, _) => if l.length = entryListSize idx then some l else none
    | none => none
  | none => some (List.replicate (entryListSize idx) czero)

/-- C4 counterexample: the two-entry list `[(1, 5), (1, 6)]` (two count-1
entries with different hashes) does not survive the codec round trip —
only the first hash is stored, so it decodes to `[(1, 5), (1, 5)]`. -/
theorem entryList_roundtrip_counterexample :
    deserEntryList (serEntryList [⟨1, 5⟩, ⟨1, 6⟩]) ≠
      some ([(⟨1, 5⟩ : CEntry), ⟨1, 6⟩], []) := by decide

theorem toLE_length : ∀ (w v : Nat), (toLE w v).length = w := by
  intro w
  induction w with
  | zero => intro v; rfl
  | succ w ih => intro v; show (toLE w (v / 256)).length + 1 = w + 1; rw [ih]

theorem fromLE_toLE : ∀ (w v : Nat), fromLE (toLE w v) = v % 2 ^ (8 * w) := by
  intro w
  induction w with
  | zero =>
    intro v
    simp [toLE, fromLE]
    omega
  | succ w ih =>
    intro v
    show v % 256 + 256 * fromLE (toLE w (v / 256)) = v % 2 ^ (8 * (w + 1))
    rw [ih]
    have hpow : (2:Nat) ^ (8 * (w + 1)) = 256 * 2 ^ (8 * w) := by
      rw [Nat.mul_add, pow_add, Nat.mul_comm]
      norm_num
    rw [hpow, Nat.mod_mul]

theorem readBytes_exact (xs rest : List Nat) :
    readBytes xs.length (xs ++ rest) = some (xs, rest) := by
  unfold readBytes
  rw [if_pos (by simp), List.take_left, List.drop_left]

theorem readEntrySer_exact (e : CEntry) (rest : List Nat) (hc : e.count < 2 ^ 32)
    (hh : e.hash < 2 ^ 256) :
    readEntrySer (serEntry e ++ rest) = some (e, rest) := by
  unfold readEntrySer serEntry
  have h4 : toLE 4 e.count ++ toLE 32 e.hash ++ rest =
      toLE 4 e.count ++ (toLE 32 e.hash ++ rest) := by simp
  have hr4 : readBytes 4 (toLE 4 e.count ++ (toLE 32 e.hash ++ rest)) =
      some (toLE 4 e.count, toLE 32 e.hash ++ rest) := by
    have := readBytes_exact (toLE 4 e.count) (toLE 32 e.hash ++ rest)
    rwa [toLE_length] at this
  have hr32 : readBytes 32 (toLE 32 e.hash ++ rest) = some (toLE 32 e.hash, rest) := by
    have := readBytes_exact (toLE 32 e.hash) rest
    rwa [toLE_length] at this
  have hcm : e.count % 2 ^ (8 * 4) = e.count := Nat.mod_eq_of_lt (by norm_num at hc ⊢; omega)
  have hhm : e.hash % 2 ^ (8 * 32) = e.hash := Nat.mod_eq_of_lt (by norm_num at hh ⊢; omega)
  rw [h4]
  simp only [hr4, hr32, fromLE_toLE, hcm, hhm]

theorem readEntriesSer_exact :
    ∀ (C : List CEntry) (rest : List Nat),
      (∀ e ∈ C, e.count < 2 ^ 32 ∧ e.hash < 2 ^ 256) →
      readEntriesSer C.length ((C.map serEntry).flatten ++ rest) = some (C, rest) := by
  intro C
  induction C with
  | nil => intro rest _; rfl
  | cons e C ih =>
    intro rest hb
    have hassoc : (((e :: C).map serEntry).flatten) ++ rest =
        serEntry e ++ ((C.map serEntry).flatten ++ rest) := by simp
    rw [hassoc]
    have h1 := readEntrySer_exact e ((C.map serEntry).flatten ++ rest)
      (hb e (by simp)).1 (hb e (by simp)).2
    have h2 := ih rest (fun x hx => hb x (by simp [hx]))
    show (match readEntrySer (serEntry e ++ ((C.map serEntry).flatten ++ rest)) with
      | some (e', r) =>
        match readEntriesSer C.length r with
        | some (es, r2) => some (e' :: es, r2)
        | none => none
      | none => none) = some (e :: C, rest)
    simp only [h1, h2]

theorem scanFrom_takeWhile (p : CEntry → Bool) (l : List CEntry) :
    ∀ (rem h : Nat), h + rem = l.length →
      scanFrom p l h rem = h + ((l.drop h).takeWhile p).length := by
  intro rem
  induction rem with
  | zero =>
    intro h hlen
    have hd : l.drop h = [] := by
      have hh : h = l.length := by omega
      rw [hh]
      exact List.drop_length ..
    simp [scanFrom, hd]
  | succ r ih =>
    intro h hlen
    have hlt : h < l.length := by omega
    have hgd : l.getD h czero = l[h] := by
      rw [List.getD_eq_getElem?_getD, List.getElem?_eq_getElem hlt]
      rfl
    have hdrop : l.drop h = l[h] :: l.drop (h + 1) := List.drop_eq_getElem_cons hlt
    show (if p (l.getD h czero) then scanFrom p l (h + 1) r else h) = _
    rw [hgd, hdrop, List.takeWhile_cons]
    by_cases hp : p l[h]
    · rw [if_pos hp, if_pos hp, ih (h + 1) (by omega), List.length_cons]
      omega
    · rw [if_neg hp, if_neg hp]
      rfl

theorem map_range_getD (pre L : List CEntry) :
    (List.range L.length).map (fun j => serEntry ((pre ++ L).getD (pre.length + j) czero)) =
      L.map serEntry := by
  apply List.ext_getElem
  · simp
  · intro i h1 h2
    simp only [List.getElem_map, List.getElem_range]
    congr 1
    have hi : i < L.length := by simpa using h1
    rw [List.getD_eq_getElem?_getD, List.getElem?_append_right (by omega)]
    have hsub : pre.length + i - pre.length = i := by omega
    rw [hsub, List.getElem?_eq_getElem hi]
    rfl

theorem deserEntryList_cons (t m mx : Nat) (rest : List Nat) :
    deserEntryList (t :: m :: mx :: rest) =
      if t ≤ m ∧ m ≤ mx then
        if t < m then
          match readBytes 32 rest with
          | some (hb, r1) =>
            match readEntriesSer (mx - m) r1 with
            | some (es, r2) =>
              some (List.replicate t czero ++
                List.replicate (m - t) ⟨1, fromLE hb⟩ ++ es, r2)
            | none => none
          | none => none
        else
          match readEntriesSer (mx - m) rest with
          | some (es, r2) => some (List.replicate t czero ++ es, r2)
          | none => none
      else none := rfl

/-- Codec round trip under the storage invariant: lists whose leading
count-0 entries are fully cleared and whose initial count-1 run shares a
single hash (plus the u8/u32/u256 bounds) decode back exactly, consuming
the whole stream. -/
theorem serEntryList_roundtrip (l : List CEntry)
    (hlen : l.length ≤ 255)
    (hbounds : ∀ e ∈ l, e.count < 2 ^ 32 ∧ e.hash < 2 ^ 256)
    (hzeroes : ∀ e ∈ l.takeWhile (fun e => e.count == 0), e.hash = 0)
    (hrun : ∀ e ∈ (l.dropWhile (fun e => e.count == 0)).takeWhile (fun e => e.count == 1),
        e.hash = ((l.dropWhile (fun e => e.count == 0)).getD 0 czero).hash) :
    deserEntryList (serEntryList l) = some (l, []) := by
  have hAD : l.takeWhile (fun e => e.count == 0) ++ l.dropWhile (fun e => e.count == 0) = l :=
    List.takeWhile_append_dropWhile ..
  set A := l.takeWhile (fun e => e.count == 0) with hA
  set D := l.dropWhile (fun e => e.count == 0) with hD
  have hBC : D.takeWhile (fun e => e.count == 1) ++ D.dropWhile (fun e => e.count == 1) = D :=
    List.takeWhile_append_dropWhile ..
  set B := D.takeWhile (fun e => e.count == 1) with hB
  set C := D.dropWhile (fun e => e.count == 1) with hC
  have hlsplit : (A ++ B) ++ C = l := by
    rw [List.append_assoc, hBC, hAD]
  have hlenAD : A.length + D.length = l.length := by
    rw [← hAD]
    simp
  have hlenBC : B.length + C.length = D.length := by
    rw [← hBC]
    simp
  have hmax : l.length % 256 = l.length := Nat.mod_eq_of_lt (by omega)
  have ht : scanFrom (fun e => e.count == 0) l 0 l.length = A.length := by
    rw [scanFrom_takeWhile _ l l.length 0 (by omega)]
    simp [hA]
  have hdropA : l.drop A.length = D := by
    conv_lhs => rw [← hAD]
    rw [List.drop_left]
  have hm : scanFrom (fun e => e.count == 1) l A.length (l.length - A.length) =
      A.length + B.length := by
    rw [scanFrom_takeWhile _ l _ _ (by omega), hdropA]
  have hser : serEntryList l = A.length :: (A.length + B.length) :: l.length ::
      ((if A.length < A.length + B.length then toLE 32 (l.getD A.length czero).hash
        else []) ++
        ((List.range (l.length - (A.length + B.length))).map
          (fun j => serEntry (l.getD (A.length + B.length + j) czero))).flatten) := by
    simp only [serEntryList, hmax, ht, hm]
  have hCbounds : ∀ e ∈ C, e.count < 2 ^ 32 ∧ e.hash < 2 ^ 256 := by
    intro e he
    apply hbounds
    rw [← hlsplit]
    simp [he]
  have hflat : ((List.range (l.length - (A.length + B.length))).map
      (fun j => serEntry (l.getD (A.length + B.length + j) czero))).flatten =
      (C.map serEntry).flatten := by
    have hClen : l.length - (A.length + B.length) = C.length := by omega
    have hpre : A.length + B.length = (A ++ B).length := by simp
    rw [hClen]
    congr 1
    have := map_range_getD (A ++ B) C
    rw [hlsplit] at this
    rw [← this, ← hpre]
  have hrdC : readEntriesSer (l.length - (A.length + B.length))
      ((C.map serEntry).flatten ++ []) = some (C, []) := by
    have hClen : l.length - (A.length + B.length) = C.length := by omega
    rw [hClen]
    exact readEntriesSer_exact C [] hCbounds
  rw [List.append_nil] at hrdC
  have hArep : List.replicate A.length czero = A := by
    symm
    rw [List.eq_replicate_iff]
    refine ⟨rfl, ?_⟩
    intro b hb
    have hc0 : b.count = 0 := by
      have := List.mem_takeWhile_imp hb
      simpa using this
    have hh0 : b.hash = 0 := hzeroes b hb
    cases b
    simp_all [czero]
  rcases hBnil : B with _ | ⟨b0, B'⟩
  · -- empty count-1 run: terminal = middle
    rw [hser, deserEntryList_cons]
    simp only [hBnil, List.length_nil, Nat.add_zero] at hflat hrdC ⊢
    rw [if_pos ⟨le_refl A.length, by omega⟩, if_neg (lt_irrefl A.length)]
    have hif : (if A.length < A.length then toLE 32 (l.getD A.length czero).hash
        else []) = [] := if_neg (lt_irrefl _)
    rw [hif, List.nil_append, hflat, hrdC, hArep]
    have hDC : D = C := by rw [← hBC, hBnil, List.nil_append]
    rw [← hDC]
    show some (A ++ D, ([] : List Nat)) = some (l, [])
    rw [hAD]
  · -- nonempty count-1 run
    have hD0 : D = b0 :: (B' ++ C) := by
      rw [← hBC, hBnil]
      rfl
    have hgd : l.getD A.length czero = b0 := by
      conv_lhs => rw [← hAD]
      rw [getD_append_len, hD0]
      rfl
    have hb0mem : b0 ∈ l := by
      rw [← hAD, hD0]
      simp
    have hb0hash : b0.hash < 2 ^ 256 := (hbounds b0 hb0mem).2
    rw [hser, deserEntryList_cons]
    have hBlen : 0 < B.length := by rw [hBnil]; simp
    rw [if_pos (by omega), if_pos (by omega), hgd]
    rw [hflat, if_pos (by omega)]
    have hfle : fromLE (toLE 32 b0.hash) = b0.hash := by
      rw [fromLE_toLE]
      exact Nat.mod_eq_of_lt (by norm_num at hb0hash ⊢; omega)
    have hrb2 : readBytes 32 (toLE 32 b0.hash ++ (C.map serEntry).flatten) =
        some (toLE 32 b0.hash, (C.map serEntry).flatten) := by
      have := readBytes_exact (toLE 32 b0.hash) ((C.map serEntry).flatten)
      rwa [toLE_length] at this
    simp only [hrb2, hrdC, hfle]
    have hBrep : List.replicate (A.length + B.length - A.length)
        (⟨1, b0.hash⟩ : CEntry) = B := by
      symm
      rw [List.eq_replicate_iff]
      refine ⟨by omega, ?_⟩
      intro b hb
      have hc1 : b.count = 1 := by
        have := List.mem_takeWhile_imp (hB ▸ hb)
        simpa using this
      have hh1 : b.hash = b0.hash := by
        have hx := hrun b (hB ▸ hb)
        rw [hx, hD0]
        rfl
      obtain ⟨bc, bh⟩ := b
      simp only at hc1 hh1
      rw [hc1, hh1]
    rw [hBrep, hArep, hlsplit]

/-- C4 (amended): the compressed entry-list codec round-trips exactly
those lists the store ever holds under the codec's invariant — leading
count-0 entries cleared to the zero hash and the initial count-1 run
sharing a single hash (with `u8`/`u32`/`u256` bounds); and a read whose
decoded length differs from `peak_height(index, index+1) + 1` is rejected
as a corruption error. -/
theorem entryList_codec_correct :
    (∀ l : List CEntry, l.length ≤ 255 →
        (∀ e ∈ l, e.count < 2 ^ 32 ∧ e.hash < 2 ^ 256) →
        (∀ e ∈ l.takeWhile (fun e => e.count == 0), e.hash = 0) →
        (∀ e ∈ (l.dropWhile (fun e => e.count == 0)).takeWhile (fun e => e.count == 1),
          e.hash = ((l.dropWhile (fun e => e.count == 0)).getD 0 czero).hash) →
        deserEntryList (serEntryList l) = some (l, [])) ∧
    (∀ (db : Nat → Option (List Nat)) (idx : Nat) (bytes : List Nat)
        (l : List CEntry) (rest : List Nat),
        db idx = some bytes → deserEntryList bytes = some (l, rest) →
        l.length ≠ entryListSize idx → readEntriesB db idx = none) := by
  constructor
  · intro l h1 h2 h3 h4
    exact serEntryList_roundtrip l h1 h2 h3 h4
  · intro db idx bytes l rest hdb hdes hne
    unfold readEntriesB
    simp only [hdb, hdes]
    rw [if_neg hne]

/-- Witness for C4's amended theorem at the one-entry list `[(1, 5)]`. -/
theorem entryList_codec_correct_witness :
    deserEntryList (serEntryList [⟨1, 5⟩]) = some ([(⟨1, 5⟩ : CEntry)], []) :=
  entryList_codec_correct.1 [⟨1, 5⟩] (by norm_num) (by decide) (by decide) (by decide)

/-! ## blockfilter.cpp : GCSFilter construction from encoded bytes

The byte stream is a byte list read at a position; the bit stream reads
MSB-first at a bit position.  `BitStreamReader` and `ReadCompactSize`
live in streams.h/serialize.h, external primitives per the spec. -/

/-- Modelled from the spec: one bit of the big-endian bitstream
(bit reader over a byte source, streams.h, absent from the sources). -/
def bitAt (bytes : List Nat) (i : Nat) : Nat :=
  (bytes.getD (i / 8) 0 >>> (7 - i % 8)) &&& 1

/-- The value of `n` bits MSB-first starting at bit position `pos`. -/
def bitsVal (bytes : List Nat) (pos : Nat) : Nat → Nat
  | 0 => 0
  | n + 1 => bitsVal bytes pos n * 2 + bitAt bytes (pos + n)

/-- Modelled from the spec: `BitStreamReader::Read(n)` — the next `n` bits
zero-extended, failing when the source is exhausted mid-read. -/
def readBitsR (bytes : List Nat) (pos n : Nat) : Option (Nat × Nat) :=
  if pos + n ≤ 8 * bytes.length then some (bitsVal bytes pos n, pos + n) else none

/-- Modelled from the spec: the little-endian multi-byte tail of a
compact-size integer. -/
def readLEBytes (bytes : List Nat) (pos : Nat) : Nat → Option Nat
  | 0 => some 0
  | w + 1 =>
    match bytes[pos]? with
    | some b =>
      match readLEBytes bytes (pos + 1) w with
      | some v => some (b + 256 * v)
      | none => none
    | none => none

/-- Modelled from the spec: `ReadCompactSize` (serialize.h, absent from
the sources): one tag byte, then 0, 2, 4 or 8 little-endian value bytes. -/
def readCompactSize (bytes : List Nat) (pos : Nat) : Option (Nat × Nat) :=
  match bytes[pos]? with
  | none => none
  | some b =>
    if b < 253 then some (b, pos + 1)
    else if b = 253 then (readLEBytes bytes (pos + 1) 2).map (fun v => (v, pos + 3))
    else if b = 254 then (readLEBytes bytes (pos + 1) 4).map (fun v => (v, pos + 5))
    else (readLEBytes bytes (pos + 1) 8).map (fun v => (v, pos + 9))

/-- The unary-quotient loop of `GolombRiceDecode`: count 1-bits until a
0-bit, failing at end of stream. -/
def readUnary (bytes : List Nat) (pos : Nat) : Option (Nat × Nat) :=
  if _h : pos < 8 * bytes.length then
    if bitAt bytes pos = 1 then
      match readUnary bytes (pos + 1) with
      | some (q, p) => some (q + 1, p)
      | none => none
    else some (0, pos + 1)
  else none
termination_by 8 * bytes.length - pos

/-- `GolombRiceDecode(bitreader, k)` from blockfilter.cpp:
`(q << k) + r` on `uint64_t`. -/
def golombRiceDecode (k : Nat) (bytes : List Nat) (pos : Nat) : Option (Nat × Nat) :=
  match readUnary bytes pos with
  | some (q, p1) =>
    match readBitsR bytes p1 k with
    | some (r, p2) => some (((q <<< k) % 2 ^ 64 + r) % 2 ^ 64, p2)
    | none => none
  | none => none

/-- The validation loop of the from-bytes `GCSFilter` constructor: decode
`N` Golomb-Rice values, returning the final bit position. -/
def gcsDecodeLoop (k : Nat) (bytes : List Nat) (pos : Nat) : Nat → Option Nat
  | 0 => some pos
  | n + 1 =>
    match golombRiceDecode k bytes pos with
    | some (_, p) => gcsDecodeLoop k bytes p n
    | none => none

/-- `GCSFilter::GCSFilter(k0, k1, P, encoded_filter)` from
blockfilter.cpp: reject `P > 32`, read the compact-size `N`, reject
`N ≥ 2^32`, then decode `N` values to surface stream errors.  Returns
`(N, final bit position)` on success; there is no check that the stream
was fully consumed. -/
def gcsConstructFromBytes (P : Nat) (enc : List Nat) : Option (Nat × Nat) :=
  if P > 32 then none
  else
    match readCompactSize enc 0 with
    | some (n, bytePos) =>
      if n ≥ 2 ^ 32 then none
      else (gcsDecodeLoop P enc (8 * bytePos) n).map (fun endPos => (n, endPos))
    | none => none

/-- C2 counterexample: the encoded filter `[0x00, 0xAB]` — compact-size
`N = 0` followed by one excess byte — is accepted by the from-bytes
constructor, with only 8 of the 16 input bits consumed. -/
theorem gcsConstruct_trailing_counterexample :
    gcsConstructFromBytes 20 [0, 171] = some (0, 8) ∧ 8 < 8 * 2 := by
  constructor
  · rfl
  · norm_num

theorem getD_append_left_lt {α : Type} (l1 l2 : List α) (j : Nat) (d : α)
    (hj : j < l1.length) : (l1 ++ l2).getD j d = l1.getD j d := by
  rw [List.getD_eq_getElem?_getD, List.getD_eq_getElem?_getD,
    List.getElem?_append_left hj]

theorem bitAt_append (bytes extra : List Nat) (i : Nat) (hi : i < 8 * bytes.length) :
    bitAt (bytes ++ extra) i = bitAt bytes i := by
  unfold bitAt
  rw [getD_append_left_lt _ _ _ _ (by omega)]

theorem bitsVal_append (bytes extra : List Nat) (pos : Nat) :
    ∀ n, pos + n ≤ 8 * bytes.length →
      bitsVal (bytes ++ extra) pos n = bitsVal bytes pos n := by
  intro n
  induction n with
  | zero => intro _; rfl
  | succ k ih =>
    intro h
    simp only [bitsVal]
    rw [ih (by omega), bitAt_append _ _ _ (by omega)]

theorem readBitsR_append (bytes extra : List Nat) (pos n v p : Nat)
    (h : readBitsR bytes pos n = some (v, p)) :
    readBitsR (bytes ++ extra) pos n = some (v, p) := by
  unfold readBitsR at h ⊢
  split at h
  case isTrue hle =>
    rw [if_pos (show pos + n ≤ 8 * (bytes ++ extra).length by
      simp only [List.length_append]; omega)]
    rw [bitsVal_append _ _ _ _ hle]
    exact h
  case isFalse _ => exact Option.noConfusion h

theorem readLEBytes_append (bytes extra : List Nat) :
    ∀ w pos v, readLEBytes bytes pos w = some v →
      readLEBytes (bytes ++ extra) pos w = some v := by
  intro w
  induction w with
  | zero => intro pos v h; exact h
  | succ k ih =>
    intro pos v h
    simp only [readLEBytes] at h ⊢
    cases hb : bytes[pos]? with
    | none => simp only [hb] at h; exact Option.noConfusion h
    | some b =>
      have hpos : pos < bytes.length := by
        by_contra hc
        rw [List.getElem?_eq_none (by omega)] at hb
        exact Option.noConfusion hb
      simp only [hb] at h
      rw [List.getElem?_append_left hpos]
      simp only [hb]
      cases hv : readLEBytes bytes (pos + 1) k with
      | none => simp only [hv] at h; exact Option.noConfusion h
      | some v' =>
        simp only [hv] at h
        simp only [ih (pos + 1) v' hv]
        exact h

theorem readCompactSize_append (bytes extra : List Nat) (n p : Nat)
    (h : readCompactSize bytes 0 = some (n, p)) :
    readCompactSize (bytes ++ extra) 0 = some (n, p) := by
  unfold readCompactSize at h ⊢
  cases hb : bytes[0]? with
  | none => simp only [hb] at h; exact Option.noConfusion h
  | some b =>
    have h0 : 0 < bytes.length := by
      by_contra hc
      rw [List.getElem?_eq_none (by omega)] at hb
      exact Option.noConfusion hb
    simp only [hb] at h
    rw [List.getElem?_append_left h0]
    simp only [hb]
    split_ifs at h ⊢ with h1 h2 h3
    · exact h
    · cases hv : readLEBytes bytes 1 2 with
      | none => simp only [hv] at h; exact Option.noConfusion h
      | some v =>
        simp only [readLEBytes_append bytes extra 2 1 v hv]
        simp only [hv] at h
        exact h
    · cases hv : readLEBytes bytes 1 4 with
      | none => simp only [hv] at h; exact Option.noConfusion h
      | some v =>
        simp only [readLEBytes_append bytes extra 4 1 v hv]
        simp only [hv] at h
        exact h
    · cases hv : readLEBytes bytes 1 8 with
      | none => simp only [hv] at h; exact Option.noConfusion h
      | some v =>
        simp only [readLEBytes_append bytes extra 8 1 v hv]
        simp only [hv] at h
        exact h

theorem readUnary_append (bytes extra : List Nat) :
    ∀ q pos p, readUnary bytes pos = some (q, p) →
      readUnary (bytes ++ extra) pos = some (q, p) := by
  intro q
  induction q with
  | zero =>
    intro pos p h
    rw [readUnary] at h
    split at h
    case isFalse _ => exact Option.noConfusion h
    case isTrue hlt =>
      rw [readUnary, dif_pos (show pos < 8 * (bytes ++ extra).length by
        simp only [List.length_append]; omega)]
      rw [bitAt_append bytes extra pos hlt]
      split at h
      case isTrue hbit =>
        cases hr : readUnary bytes (pos + 1) with
        | none => simp only [hr] at h; exact Option.noConfusion h
        | some qp =>
          obtain ⟨q', p'⟩ := qp
          simp only [hr] at h
          exact absurd h (by simp)
      case isFalse hbit =>
        rw [if_neg hbit]
        exact h
  | succ k ih =>
    intro pos p h
    rw [readUnary] at h
    split at h
    case isFalse _ => exact Option.noConfusion h
    case isTrue hlt =>
      rw [readUnary, dif_pos (show pos < 8 * (bytes ++ extra).length by
        simp only [List.length_append]; omega)]
      rw [bitAt_append bytes extra pos hlt]
      split at h
      case isTrue hbit =>
        rw [if_pos hbit]
        cases hr : readUnary bytes (pos + 1) with
        | none => simp only [hr] at h; exact Option.noConfusion h
        | some qp =>
          obtain ⟨q', p'⟩ := qp
          simp only [hr, Option.some.injEq, Prod.mk.injEq] at h
          obtain ⟨hq, hp⟩ := h
          have hq' : q' = k := by omega
          subst hq'
          subst hp
          simp only [ih (pos + 1) p' hr]
      case isFalse hbit =>
        exact absurd h (by simp)

theorem golombRiceDecode_append (k : Nat) (bytes extra : List Nat) (pos v p : Nat)
    (h : golombRiceDecode k bytes pos = some (v, p)) :
    golombRiceDecode k (bytes ++ extra) pos = some (v, p) := by
  unfold golombRiceDecode at h ⊢
  cases hu : readUnary bytes pos with
  | none => simp only [hu] at h; exact Option.noConfusion h
  | some qp =>
    obtain ⟨q, p1⟩ := qp
    simp only [hu] at h
    simp only [readUnary_append bytes extra q pos p1 hu]
    cases hb : readBitsR bytes p1 k with
    | none => simp only [hb] at h; exact Option.noConfusion h
    | some rp =>
      obtain ⟨r, p2⟩ := rp
      simp only [hb] at h
      simp only [readBitsR_append bytes extra p1 k r p2 hb]
      exact h

theorem gcsDecodeLoop_append (k : Nat) (bytes extra : List Nat) :
    ∀ n pos e, gcsDecodeLoop k bytes pos n = some e →
      gcsDecodeLoop k (bytes ++ extra) pos n = some e := by
  intro n
  induction n with
  | zero => intro pos e h; exact h
  | succ m ih =>
    intro pos e h
    simp only [gcsDecodeLoop] at h ⊢
    cases hg : golombRiceDecode k bytes pos with
    | none => simp only [hg] at h; exact Option.noConfusion h
    | some vp =>
      obtain ⟨v, p⟩ := vp
      simp only [hg] at h
      simp only [golombRiceDecode_append k bytes extra pos v p hg]
      exact ih p e h

/-- C2 (amended): the from-bytes `GCSFilter` constructor never inspects
the input past the decoded prefix, so an encoding accepted producing
`(N, endPos)` is still accepted, with the same result, after appending
arbitrary trailing bytes; trailing garbage is not rejected. -/
theorem gcsConstruct_ignores_trailing (P : Nat) (enc extra : List Nat) (n endPos : Nat)
    (h : gcsConstructFromBytes P enc = some (n, endPos)) :
    gcsConstructFromBytes P (enc ++ extra) = some (n, endPos) := by
  unfold gcsConstructFromBytes at h ⊢
  by_cases hP : P > 32
  · rw [if_pos hP] at h
    exact Option.noConfusion h
  · rw [if_neg hP] at h ⊢
    cases hc : readCompactSize enc 0 with
    | none => simp only [hc] at h; exact Option.noConfusion h
    | some nb =>
      obtain ⟨n', bp⟩ := nb
      simp only [hc] at h
      simp only [readCompactSize_append enc extra n' bp hc]
      by_cases hn : n' ≥ 2 ^ 32
      · rw [if_pos hn] at h
        exact Option.noConfusion h
      · rw [if_neg hn] at h ⊢
        cases hd : gcsDecodeLoop P enc (8 * bp) n' with
        | none => simp only [hd] at h; exact Option.noConfusion h
        | some e =>
          simp only [gcsDecodeLoop_append P enc extra n' (8 * bp) e hd]
          simp only [hd] at h
          exact h

theorem gcsConstruct_ignores_trailing_witness :
    gcsConstructFromBytes 20 ([0] ++ [171]) = some (0, 8) :=
  gcsConstruct_ignores_trailing 20 [0] [171] 0 8 (by rfl)

/-! ## index/blockfilter.cpp : the two-keyed filter index

One column prefix (DB_FILTER / DB_FILTER_HASH / DB_FILTER_HEADER behave
identically) with an abstract payload.  Keys are ('t', height) for rows
of the active chain and ('s', block hash) for reorged-out rows; height
rows store the pair (block hash, payload), hash rows only the payload —
`CopyHeightIndexToHashIndex` writes `value.second` alone.  The C++ walks
the height rows with a database iterator checking each key against the
expected ('t', height); for the heights used here the little-endian key
encoding is ordered and gap-free, so the walk is a read per height. -/

inductive FKey
  | hkey : Nat → FKey
  | skey : Hash → FKey
deriving DecidableEq

inductive FVal
  | hval : Hash → Nat → FVal
  | sval : Nat → FVal
deriving DecidableEq

def FStore : Type := FKey → Option FVal

def fwrite (db : FStore) (k : FKey) (v : FVal) : FStore :=
  fun q => if q = k then some v else db q

/-- One `batch.Write` of `BlockFilterIndex::WriteBlock` for one column:
the height row holds the block hash together with the payload. -/
def writeBlockRow (db : FStore) (height : Nat) (bh : Hash) (payload : Nat) : FStore :=
  fwrite db (FKey.hkey height) (FVal.hval bh payload)

/-- `CopyHeightIndexToHashIndex`: visit `count` height rows starting at
`start`, collecting the (hash, payload) pairs to be written as hash
rows; a missing or malformed row is the key-mismatch error. -/
def copyHeights (db : FStore) (start : Nat) : Nat → Option (List (Hash × Nat))
  | 0 => some []
  | n + 1 =>
    match db (FKey.hkey start) with
    | some (FVal.hval bh payload) =>
      (copyHeights db (start + 1) n).map (fun rest => (bh, payload) :: rest)
    | _ => none

/-- Apply the accumulated `CDBBatch` of hash-row writes. -/
def applyBatch (db : FStore) (writes : List (Hash × Nat)) : FStore :=
  writes.foldl (fun d w => fwrite d (FKey.skey w.1) (FVal.sval w.2)) db

/-- `BlockFilterIndex::Rewind(current_tip, new_tip)` for one column:
copy the height rows from `new_tip`'s height through `current_tip`'s
height into hash rows, then commit the batch.  The stale height rows
are not deleted. -/
def rewindIndex (db : FStore) (newTipH curH : Nat) : Option FStore :=
  (copyHeights db newTipH (curH + 1 - newTipH)).map (applyBatch db)

/-- `LookupOne`: read the height row; fail if absent; if its stored
block hash matches, return its payload, otherwise fall back to the hash
row of the requested block. -/
def lookupOne (db : FStore) (height : Nat) (bh : Hash) : Option Nat :=
  match db (FKey.hkey height) with
  | some (FVal.hval rh p) =>
    if rh = bh then some p
    else
      match db (FKey.skey bh) with
      | some (FVal.sval p') => some p'
      | _ => none
  | _ => none

/-- Chain-A block hash at a height. -/
def aHash (h : Nat) : Hash := Hash.blk (100 + h)

/-- Chain-B block hash at a height. -/
def bHash (h : Nat) : Hash := Hash.blk (200 + h)

def emptyFStore : FStore := fun _ => none

/-- Rows written for chain A at heights 10..20, payload `1000 + h`. -/
def chainAStore : FStore :=
  (List.range' 10 11).foldl (fun d h => writeBlockRow d h (aHash h) (1000 + h)) emptyFStore

/-- Rows written for chain B at heights 15..18, payload `2000 + h`. -/
def writeChainB (db : FStore) : FStore :=
  (List.range' 15 4).foldl (fun d h => writeBlockRow d h (bHash h) (2000 + h)) db

/-- C9: after indexing chain A at heights 10..20, rewinding the index
from the chain-A tip at height 20 to the fork at height 14 (which
copies rows 14..20 to the hash index in one batch), and indexing chain
B at heights 15..18, the height row at 17 belongs to chain B and the
chain-A payload sits in its hash row; `LookupOne` returns the chain-A
payload for the chain-A block at height 17 via the hash row and the
chain-B payload for the chain-B block at height 17 via the height
row. -/
theorem index_reorg_lookup :
    ∃ s, rewindIndex chainAStore 14 20 = some s ∧
      (writeChainB s) (FKey.hkey 17) = some (FVal.hval (bHash 17) 2017) ∧
      (writeChainB s) (FKey.skey (aHash 17)) = some (FVal.sval 1017) ∧
      lookupOne (writeChainB s) 17 (aHash 17) = some 1017 ∧
      lookupOne (writeChainB s) 17 (bHash 17) = some 2017 := by
  refine ⟨_, rfl, ?_, ?_, ?_, ?_⟩ <;> rfl

end BitcoinMMR
